import Mathlib

/-!
Verification of the parglare grammar-compilation core (src/parglare/grammar.py)
against its specification.

This file gives a shallow embedding of the grammar module: Python objects
become Lean records, Python exceptions become an explicit `PyError` sum
carried in `Except`, Python dicts become insertion-ordered association lists
with overwrite-in-place semantics, and Python sets of grammar symbols become
lists deduplicated by symbol name (grammar symbols hash and compare by name).
Object identity (Python `id`) is modelled by an `sid` field; mutation of a
shared object is modelled by applying the same pure rewriting function to
every occurrence of the record.

Elided aspects, each noted at its definition site: resolved action callables
(opaque Python functions), the `productions` back-list of a NonTerminal,
the import machinery, debug printing, and OS path canonicalization.
-/

namespace Parglare

/-- Python exceptions that the grammar module can raise: GrammarError is the
module's own error type; AttributeError/TypeError/IndexError/AssertionError
are interpreter-level errors reachable from this code. -/
inductive PyError where
  | grammarError (msg : String)
  | attributeError (attr : String)
  | assertionError
  | typeError (msg : String)
  | indexError (msg : String)
deriving Repr, DecidableEq

/-- Decidable equality of computation results. -/
instance {ε α : Type} [DecidableEq ε] [DecidableEq α] : DecidableEq (Except ε α)
  | Except.error e, Except.error f => decidable_of_iff (e = f) (by simp)
  | Except.error _, Except.ok _ => isFalse (by simp)
  | Except.ok _, Except.error _ => isFalse (by simp)
  | Except.ok a, Except.ok b => decidable_of_iff (a = b) (by simp)

/-- The three classes a right-hand-side or left-hand-side object can have:
Terminal, NonTerminal, or the deferred-name Reference. -/
inductive SymKind where
  | terminal
  | nonterminal
  | reference
deriving Repr, DecidableEq

/-- Model of the regular expressions this development needs. `identWord`
models the pattern [a-zA-Z_][a-zA-Z0-9_]* used for KEYWORD rules;
`wordBoundaryLit lit` models the word-boundary pattern produced by
keyword normalization (backslash-b, the literal, backslash-b) for a literal
without regex metacharacters. Python compiles patterns with re.MULTILINE,
which is irrelevant here since neither pattern uses anchors. -/
inductive PRegex where
  | identWord
  | wordBoundaryLit (lit : String)
deriving Repr, DecidableEq

/-- A terminal recognizer: StringRecognizer (value, ignore_case),
RegExRecognizer (pattern, ignore_case), or one of the special recognizer
functions (EMPTY_recognizer etc.), kept opaque by name. -/
inductive Recog where
  | strRec (value : String) (ignoreCase : Bool)
  | regexRec (r : PRegex) (ignoreCase : Bool)
  | funcRec (fname : String)
deriving Repr, DecidableEq

/-- A grammar symbol (GrammarSymbol/Terminal/NonTerminal) or a Reference,
flattened into one record. `sid` models Python object identity. Terminal
attributes (`recognizer`, `prior`, `finishFlag`, `prefer`, `dynamic`,
`keyword`) are meaningful only when `kind` is `terminal`; `recognizer` is
`none` when the Python attribute is None. The resolved `action` and
`grammar_action` callables are opaque Python functions and are elided; only
`action_name` (which drives the conflicting-action check) is kept.
A NonTerminal's `productions` back-list is not modelled: no claim refers to
it, and it would make the symbol/production types mutually recursive. -/
structure Sym where
  sid : Nat
  kind : SymKind
  name : String
  actionName : Option String := none
  recognizer : Option Recog := none
  prior : Nat := 10
  finishFlag : Option Bool := none
  prefer : Bool := false
  dynamic : Bool := false
  keyword : Bool := false
deriving Repr, DecidableEq

/-- Terminal constructor: Terminal(name, recognizer) defaults the recognizer
to a StringRecognizer of the name itself. -/
def mkTerminal (sid : Nat) (name : String) (rec : Option Recog) : Sym :=
  { sid := sid, kind := SymKind.terminal, name := name,
    recognizer := some (rec.getD (Recog.strRec name false)) }

/-- NonTerminal constructor. -/
def mkNonTerminal (sid : Nat) (name : String) : Sym :=
  { sid := sid, kind := SymKind.nonterminal, name := name }

/-- Reference constructor (module qualifiers from imports are elided). -/
def mkReference (sid : Nat) (name : String) : Sym :=
  { sid := sid, kind := SymKind.reference, name := name }

/-- The name of the augmented start symbol: the letter S followed by an
apostrophe. -/
def augName : String := "S".push '\''

/-- The module-level EMPTY singleton terminal. -/
def EMPTY : Sym := mkTerminal 0 "EMPTY" (some (Recog.funcRec "EMPTY_recognizer"))

/-- The module-level STOP singleton terminal. -/
def STOP : Sym := mkTerminal 1 "STOP" (some (Recog.funcRec "STOP_recognizer"))

/-- The module-level EOF singleton terminal. -/
def EOF : Sym := mkTerminal 2 "EOF" (some (Recog.funcRec "EOF_recognizer"))

/-- The module-level augmented start nonterminal S'. -/
def AUGSYMBOL : Sym := mkNonTerminal 3 augName

/-- Number of elements of a backing RHS list that compare equal to EMPTY.
Python list.count uses GrammarSymbol equality, which compares names, so any
element named EMPTY counts. -/
def rhsEmptyCount (l : List Sym) : Nat :=
  (l.filter (fun s => s.name == "EMPTY")).length

/-- ProductionRHS length: the backing length minus the EMPTY count. -/
def rhsLen (l : List Sym) : Nat := l.length - rhsEmptyCount l

/-- ProductionRHS indexing: the source loops from idx upward, skipping
elements that are identical (`is`) to the EMPTY singleton, and turns the
final IndexError into None; equivalently, the first element at a backing
position at or above idx that is not the EMPTY object. -/
def rhsGet (l : List Sym) (idx : Nat) : Option Sym :=
  (l.drop idx).find? (fun s => s != EMPTY)

/-- A production. The assignments map feeds only the named-match attribute
schema, which no claim concerns, and is elided. prod_id / prod_symbol_id are
absent (None) until enumeration assigns them. -/
structure Production where
  symbol : Sym
  rhs : List Sym
  assoc : Nat := 0
  prior : Nat := 10
  dynamic : Bool := false
  nops : Bool := false
  nopse : Bool := false
  prodId : Option Nat := none
  prodSymbolId : Option Nat := none
deriving Repr, DecidableEq

/-- Production constructor: Production.__init__ stores the given RHS only if
it is truthy; a ProductionRHS whose filtered length is zero (for example one
holding only the EMPTY element) is falsy and is replaced by a fresh empty
ProductionRHS. -/
def mkProduction (symbol : Sym) (rhs : List Sym) : Production :=
  { symbol := symbol, rhs := if rhsLen rhs = 0 then [] else rhs }

/-- Production constructor with the nops flag (used by make_zero_or_more). -/
def mkProductionNops (symbol : Sym) (rhs : List Sym) : Production :=
  { symbol := symbol, rhs := if rhsLen rhs = 0 then [] else rhs, nops := true }

/-! ## Regular-expression matching model

Python re semantics for the two pattern shapes this module uses, on ASCII
word characters (the unicode extension of Python's backslash-w is irrelevant
to the grammars involved). -/

/-- An ASCII word character for word-boundary purposes. -/
def isWordChar (c : Char) : Bool := c.isAlpha || c.isDigit || c == '_'

/-- First character class of the identifier pattern: [a-zA-Z_]. -/
def isIdentStart (c : Char) : Bool := c.isAlpha || c == '_'

/-- Repeated character class of the identifier pattern: [a-zA-Z0-9_]. -/
def isIdentChar (c : Char) : Bool := c.isAlpha || c.isDigit || c == '_'

/-- Whether the character at position i (if any) is a word character. -/
def isWordAt (cs : List Char) (i : Nat) : Bool :=
  match cs[i]? with
  | some c => isWordChar c
  | none => false

/-- A regex word boundary holds at position i when exactly one of the
neighbouring positions i-1, i carries a word character (positions outside
the string carry none). -/
def boundaryAt (cs : List Char) (i : Nat) : Bool :=
  let l := if i = 0 then false else isWordAt cs (i - 1)
  let r := isWordAt cs i
  (l && !r) || (!l && r)

/-- Case folding for IGNORECASE comparisons. -/
def lowerChars (s : List Char) : List Char := s.map Char.toLower

/-- regex.match(in_str, pos): a match anchored at pos, returning the matched
text. identWord takes one identifier-start character and then greedily all
identifier characters; wordBoundaryLit requires a boundary, the literal
(case-folded under IGNORECASE), and a boundary. -/
def regexMatch (r : PRegex) (ignoreCase : Bool) (s : String) (pos : Nat) : Option String :=
  let cs := s.toList
  match r with
  | PRegex.identWord =>
      match cs.drop pos with
      | [] => none
      | c :: rest =>
          if isIdentStart c then some (String.mk (c :: rest.takeWhile isIdentChar)) else none
  | PRegex.wordBoundaryLit lit =>
      let lcs := lit.toList
      let slice := (cs.drop pos).take lcs.length
      let eqLit := if ignoreCase then lowerChars slice == lowerChars lcs else slice == lcs
      if boundaryAt cs pos && (slice.length == lcs.length) && eqLit
          && boundaryAt cs (pos + lcs.length) then
        some (String.mk slice)
      else none

/-- RegExRecognizer.__call__ for recognizers modelled here; a StringRecognizer
compares the input slice at pos with its value (case-folded when
ignore_case); the special function recognizers never match. -/
def recogCall (rec : Recog) (s : String) (pos : Nat) : Option String :=
  match rec with
  | Recog.strRec v ic =>
      let cs := s.toList
      let slice := (cs.drop pos).take v.toList.length
      let hit := if ic then lowerChars slice == lowerChars v.toList else slice == v.toList
      if (slice.length == v.toList.length) && hit then some v else none
  | Recog.regexRec r ic => regexMatch r ic s pos
  | Recog.funcRec _ => none

/-! ## Python dict and set model

Python dicts keep insertion order; overwriting a key keeps its position.
Sets of grammar symbols hash and compare by name, so adding a symbol whose
name is already present is a no-op that keeps the first-inserted instance. -/

/-- An insertion-ordered string-keyed dictionary. -/
abbrev SDict (α : Type) := List (String × α)

/-- dict lookup (the first entry with the key, in insertion order). -/
def dlookup {α : Type} : SDict α → String → Option α
  | [], _ => none
  | e :: d, k => if e.1 == k then some e.2 else dlookup d k

/-- dict membership test (the `in` operator on keys). -/
def dcontains {α : Type} : SDict α → String → Bool
  | [], _ => false
  | e :: d, k => (e.1 == k) || dcontains d k

/-- dict assignment d[k] = v: overwrite in place, or append a new entry. -/
def dinsert {α : Type} (d : SDict α) (k : String) (v : α) : SDict α :=
  if dcontains d k then
    d.map (fun e => if e.1 == k then (k, v) else e)
  else d ++ [(k, v)]

/-- The values view of a dict, in entry order. -/
def dvalues {α : Type} (d : SDict α) : List α := d.map (fun e => e.2)

/-- Deletion of the first dict entry whose value is a symbol with the given
name (the promotion cleanup loop over recog_to_terminals, which breaks after
the first hit). -/
def ddelFirstByValueName : SDict Sym → String → SDict Sym
  | [], _ => []
  | e :: rest, n => if e.2.name == n then rest else e :: ddelFirstByValueName rest n

/-- set.add for a set of grammar symbols: membership is by name. -/
def symSetAdd (s : List Sym) (x : Sym) : List Sym :=
  if s.any (fun y => y.name == x.name) then s else s ++ [x]

/-- set.update for a set of grammar symbols. -/
def symSetUpdate (s : List Sym) (xs : List Sym) : List Sym := xs.foldl symSetAdd s

/-! ## Repetition desugaring (make_repetition and friends)

The parse context's new_productions side-table maps a generated auxiliary
name to the auxiliary NonTerminal and its generating productions. A missing
new_productions attribute behaves exactly like an empty table, so the model
starts from the empty table. The context also carries the allocator for
fresh object identities. -/

/-- The per-compilation desugaring state. -/
structure RepCtx where
  newProductions : List (String × Sym × List Production)
  nextSid : Nat
deriving Repr, DecidableEq

/-- Lookup of an auxiliary name in the new_productions table. -/
def lookupNewProd (ctx : RepCtx) (name : String) : Option (Sym × List Production) :=
  (ctx.newProductions.find? (fun e => e.1 == name)).map (fun e => e.2)

/-- make_repetition: build (or reuse, when memoized) an auxiliary
NonTerminal for a repetition shape. The generated name is the base symbol
name, the suffix, and (when a separator is present) an underscore and the
separator name. The callable-valued action of make_zero_or_more is opaque
and passed as no action name; string actions land in action_name. -/
def makeRepetition (ctx : RepCtx) (gsymbol : Sym) (sepRef : Option Sym) (suffix : String)
    (actionName : Option String)
    (prodCallable : Sym → RepCtx → Except PyError (List Production × RepCtx)) :
    Except PyError (Sym × RepCtx) :=
  let newName :=
    match sepRef with
    | some s => gsymbol.name ++ suffix ++ "_" ++ s.name
    | none => gsymbol.name ++ suffix
  match lookupNewProd ctx newName with
  | some (nt, _) => Except.ok (nt, ctx)
  | none =>
      let newNt := { mkNonTerminal ctx.nextSid newName with actionName := actionName }
      let ctx1 : RepCtx := { ctx with nextSid := ctx.nextSid + 1 }
      match prodCallable newNt ctx1 with
      | Except.error e => Except.error e
      | Except.ok (prods, ctx2) =>
          Except.ok (newNt,
            { ctx2 with newProductions := ctx2.newProductions ++ [(newName, newNt, prods)] })

/-- make_one_or_more: X+ (suffix _1). Productions X1 -> X1 [sep] X and
X1 -> X; action collect, or collect_sep with a separator. -/
def makeOneOrMore (ctx : RepCtx) (gsymbol : Sym) (sepRef : Option Sym) :
    Except PyError (Sym × RepCtx) :=
  makeRepetition ctx gsymbol sepRef "_1"
    (some (match sepRef with | none => "collect" | some _ => "collect_sep"))
    (fun newNt c => Except.ok (
      (match sepRef with
       | some sep => [mkProduction newNt [newNt, sep, gsymbol]]
       | none => [mkProduction newNt [newNt, gsymbol]]) ++
        [mkProduction newNt [gsymbol]], c))

/-- make_zero_or_more: X* (suffix _0), built on top of make_one_or_more.
Productions X0 -> X1 with the nops flag, and X0 -> EMPTY (which the
Production constructor stores as an empty RHS). Its action is a local
Python closure, hence no action name. -/
def makeZeroOrMore (ctx : RepCtx) (gsymbol : Sym) (sepRef : Option Sym) :
    Except PyError (Sym × RepCtx) :=
  makeRepetition ctx gsymbol sepRef "_0" none
    (fun newNt c =>
      match makeOneOrMore c gsymbol sepRef with
      | Except.error e => Except.error e
      | Except.ok (oneOrMore, c1) =>
          Except.ok ([mkProductionNops newNt [oneOrMore],
                      mkProduction newNt [EMPTY]], c1))

/-- make_optional: X? (suffix _opt). A separator modifier raises
GrammarError from inside the production callable (the source formats the
position of the offending symbol into the message; positions are elided
here). -/
def makeOptional (ctx : RepCtx) (gsymbol : Sym) (sepRef : Option Sym) :
    Except PyError (Sym × RepCtx) :=
  makeRepetition ctx gsymbol sepRef "_opt" (some "optional")
    (fun newNt c =>
      match sepRef with
      | some _ =>
          Except.error (PyError.grammarError
            ("Repetition modifier not allowed for optional (?) for symbol " ++ gsymbol.name))
      | none =>
          Except.ok ([mkProduction newNt [gsymbol],
                      mkProduction newNt [EMPTY]], c))

/-- The tail of act_pgfile: the productions gathered from the parsed rules
are extended with every entry of the new_productions table, in table order,
once per auxiliary name. -/
def actPgfileExtend (productions : List Production) (ctx : RepCtx) : List Production :=
  productions ++ (ctx.newProductions.map (fun e => e.2.2)).flatten

/-! ## Keyword-terminal normalization (_fix_keyword_terminals) -/

/-- Locate the KEYWORD terminal (get_terminal) and demand a regex
recognizer, yielding its pattern and ignore-case flag. -/
def kwKey (terms : List Sym) : Except PyError (Option (PRegex × Bool)) :=
  match terms.find? (fun t => t.name == "KEYWORD") with
  | none => Except.ok none
  | some kt =>
      match kt.recognizer with
      | some (Recog.regexRec r ic) => Except.ok (some (r, ic))
      | _ => Except.error (PyError.grammarError
          "KEYWORD rule must have a regex recognizer defined.")

/-- The in-place rewrite applied to one terminal: when its recognizer is a
StringRecognizer whose whole value is matched by the KEYWORD pattern at
position 0, the recognizer becomes a word-boundary regex recognizer of the
matched text (keeping the string recognizer's ignore_case) and the keyword
flag is set. -/
def kwRewriteTerm (r : PRegex) (kic : Bool) (t : Sym) : Sym :=
  match t.recognizer with
  | some (Recog.strRec v ic) =>
      match regexMatch r kic v 0 with
      | some m =>
          if m = v then
            { t with recognizer := some (Recog.regexRec (PRegex.wordBoundaryLit m) ic),
                     keyword := true }
          else t
      | none => t
  | _ => t

/-- _fix_keyword_terminals viewed on the terminals set: no KEYWORD terminal
means no change; a KEYWORD terminal without a regex recognizer is a
GrammarError; otherwise every terminal is rewritten by `kwRewriteTerm`. -/
def fixKeywordTerminals (terms : List Sym) : Except PyError (List Sym) :=
  match kwKey terms with
  | Except.error e => Except.error e
  | Except.ok none => Except.ok terms
  | Except.ok (some (r, kic)) => Except.ok (terms.map (kwRewriteTerm r kic))

/-- Pointwise form of the keyword pass used when threading it through every
alias of the terminal objects (Python mutates the shared objects). -/
def kwApply (kw : Option (PRegex × Bool)) (s : Sym) : Sym :=
  match kw with
  | none => s
  | some (r, kic) => kwRewriteTerm r kic s

/-! ## Grammar construction (Grammar.__init__ / _init_grammar) -/

/-- State threaded through collect_symbols / _collect_grammar_symbols:
symbols_by_name, recog_to_terminals, and the fresh-identity allocator for
the NonTerminal objects created by terminal promotion. -/
structure CollectSt where
  sbn : SDict Sym
  rtt : SDict Sym
  nextSid : Nat
deriving Repr, DecidableEq

/-- _resolve_action, reduced to its only observable effect here: a truthy
action_name on the unified symbol that differs from the production symbol's
action_name is a GrammarError. Attaching the resolved callable is elided
(callables are opaque and no claim mentions them). -/
def resolveActionCheck (oldSym newSym : Sym) : Except PyError Unit :=
  match newSym.actionName with
  | some a =>
      if a ≠ "" then
        if oldSym.actionName ≠ some a then
          Except.error (PyError.grammarError
            ("Multiple different grammar actions for rule " ++ newSym.name))
        else Except.ok ()
      else Except.ok ()
  | none => Except.ok ()

/-- The per-production body of the collect loop, up to the symbols_by_name
assignment: decide which symbol object gets registered for this production
(the production's own symbol, a previously registered one, or a freshly
promoted NonTerminal) and maintain recog_to_terminals. Mirrors the source:
a Terminal LHS whose name was already registered is promoted to a fresh
NonTerminal when the previous holder was a Terminal (dropping its
recog_to_terminals entry), else reuses the previous holder; a Terminal LHS
with a fresh name and a truthy RHS registers its first RHS element's name
as a recognizer key (skipping KEYWORD/LAYOUT), asserting the name is not
already a recognizer key. rhs[0] of a truthy RHS cannot be None, but the
source would fault on .name if it were, which the model preserves. -/
def collectNewSymbol (st : CollectSt) (p : Production) : Except PyError (Sym × CollectSt) :=
  if p.symbol.kind = SymKind.terminal then
    match dlookup st.sbn p.symbol.name with
    | some prevSym =>
        if prevSym.kind = SymKind.terminal then
          let nt := mkNonTerminal st.nextSid p.symbol.name
          Except.ok (nt, { st with nextSid := st.nextSid + 1,
                                   rtt := ddelFirstByValueName st.rtt p.symbol.name })
        else Except.ok (prevSym, st)
    | none =>
        if rhsLen p.rhs ≠ 0 then
          match rhsGet p.rhs 0 with
          | none => Except.error (PyError.attributeError "name")
          | some r0 =>
              if r0.name = "KEYWORD" ∨ r0.name = "LAYOUT" then Except.ok (p.symbol, st)
              else if dcontains st.rtt p.symbol.name then Except.error PyError.assertionError
              else Except.ok (p.symbol, { st with rtt := dinsert st.rtt r0.name p.symbol })
        else Except.ok (p.symbol, st)
  else Except.ok (p.symbol, st)

/-- One iteration of the collect loop: pick the symbol, run the action
check, and register the symbol under its name. -/
def collectStep (st : CollectSt) (p : Production) : Except PyError CollectSt :=
  match collectNewSymbol st p with
  | Except.error e => Except.error e
  | Except.ok (newSym, st1) =>
      match resolveActionCheck p.symbol newSym with
      | Except.error e => Except.error e
      | Except.ok _ => Except.ok { st1 with sbn := dinsert st1.sbn newSym.name newSym }

/-- The collect loop over a production list. -/
def collectLoop : CollectSt → List Production → Except PyError CollectSt
  | st, [] => Except.ok st
  | st, p :: ps =>
      match collectStep st p with
      | Except.error e => Except.error e
      | Except.ok st' => collectLoop st' ps

/-- _check_connect_recognizers as it behaves in this snapshot:
PGFile.__init__ accepts a recognizers argument but never stores it, so the
first loop iteration's read of self.recognizers raises AttributeError; with
no terminals the loop body never runs. The override rebinding and the
missing-recognizer GrammarError below that read are unreachable. -/
def checkConnectRecognizers (terms : List Sym) : Except PyError Unit :=
  match terms with
  | [] => Except.ok ()
  | _ :: _ => Except.error (PyError.attributeError "recognizers")

/-- State threaded through _resolve_references: the growing terminals set
and the local literal-to-terminal cache rec_to_term. -/
structure ResolveSt where
  terminals : List Sym
  recToTerm : SDict Sym
deriving Repr, DecidableEq

/-- Resolution of one RHS element: a registered name resolves to the
registered instance; otherwise a nonterminal-LHS production referring to a
name registered in recog_to_terminals is a GrammarError, a non-Terminal
reference is an unknown-symbol GrammarError, and a Terminal reference is
unified through the rec_to_term cache (first occurrence caches itself and
joins the terminals set). -/
def resolveRef (sbn : SDict Sym) (rtt : SDict Sym) (pSym : Sym) (st : ResolveSt)
    (ref : Sym) : Except PyError (Sym × ResolveSt) :=
  match dlookup sbn ref.name with
  | some s => Except.ok (s, st)
  | none =>
      if pSym.kind = SymKind.nonterminal ∧ dcontains rtt ref.name then
        Except.error (PyError.grammarError
          ("Terminal " ++ ref.name ++ " used in production " ++ pSym.name ++
            " already exists by the name."))
      else if ref.kind ≠ SymKind.terminal then
        Except.error (PyError.grammarError
          ("Unknown symbol " ++ ref.name ++ " used in production " ++ pSym.name))
      else
        match dlookup st.recToTerm ref.name with
        | some t => Except.ok (t, st)
        | none =>
            Except.ok (ref, { st with recToTerm := dinsert st.recToTerm ref.name ref,
                                      terminals := symSetAdd st.terminals ref })

/-- Resolution of a whole RHS, left to right. -/
def resolveRhsLoop (sbn : SDict Sym) (rtt : SDict Sym) (pSym : Sym) :
    List Sym → ResolveSt → Except PyError (List Sym × ResolveSt)
  | [], st => Except.ok ([], st)
  | r :: rs, st =>
      match resolveRef sbn rtt pSym st r with
      | Except.error e => Except.error e
      | Except.ok (r', st') =>
          match resolveRhsLoop sbn rtt pSym rs st' with
          | Except.error e => Except.error e
          | Except.ok (rs', st'') => Except.ok (r' :: rs', st'')

/-- The LHS replacement of _resolve_references: the registered instance of
the LHS name when registered, else the LHS object unchanged. -/
def resolveLhs (sbn : SDict Sym) (p : Production) : Sym :=
  match dlookup sbn p.symbol.name with
  | some s => s
  | none => p.symbol

/-- Resolution of one production: the LHS is replaced by the registered
instance of its name when registered (appending the production to a
NonTerminal's back-list is elided), then the RHS is resolved. -/
def resolveProduction (sbn : SDict Sym) (rtt : SDict Sym) (st : ResolveSt)
    (p : Production) : Except PyError (Production × ResolveSt) :=
  match resolveRhsLoop sbn rtt (resolveLhs sbn p) p.rhs st with
  | Except.error e => Except.error e
  | Except.ok (rhs', st') =>
      Except.ok ({ p with symbol := resolveLhs sbn p, rhs := rhs' }, st')

/-- _resolve_references over the production list. -/
def resolveLoop (sbn : SDict Sym) (rtt : SDict Sym) :
    List Production → ResolveSt → Except PyError (List Production × ResolveSt)
  | [], st => Except.ok ([], st)
  | p :: ps, st =>
      match resolveProduction sbn rtt st p with
      | Except.error e => Except.error e
      | Except.ok (p', st') =>
          match resolveLoop sbn rtt ps st' with
          | Except.error e => Except.error e
          | Except.ok (ps', st'') => Except.ok (p' :: ps', st'')

/-- Terminal-production pruning: keep only productions with a NonTerminal
LHS or the LAYOUT name, but only when more than one such production
exists. -/
def pruneKeep (p : Production) : Bool :=
  decide (p.symbol.kind = SymKind.nonterminal) || (p.symbol.name == "LAYOUT")

def pruneTerminalProductions (ps : List Production) : List Production :=
  if (ps.filter pruneKeep).length > 1 then ps.filter pruneKeep else ps

/-- _enumerate_productions: assign prod_id by list position and
prod_symbol_id by a per-symbol counter (the counter dict hashes symbols,
which hash and compare by name). -/
def enumerateLoop (idxPerSymbol : SDict Nat) (i : Nat) :
    List Production → List Production
  | [] => []
  | p :: ps =>
      let k := (dlookup idxPerSymbol p.symbol.name).getD 0
      { p with prodId := some i, prodSymbolId := some k } ::
        enumerateLoop (dinsert idxPerSymbol p.symbol.name (k + 1)) (i + 1) ps

/-- The start_symbol argument of Grammar.__init__: absent, a name, or a
symbol object. -/
inductive StartParam where
  | noStart
  | byName (s : String)
  | bySymbol (sym : Sym)
deriving Repr, DecidableEq

/-- os.path.realpath on the file_path argument: None raises TypeError
(PGFile.__init__ applies realpath unconditionally); path canonicalization
itself is OS behaviour, modelled as the identity. -/
def realpathModel : Option String → Except PyError String
  | none => Except.error (PyError.typeError "realpath expected str, not NoneType")
  | some s => Except.ok s

/-- The default start symbol: the first production's LHS (an empty
production list faults with IndexError). -/
def defaultStart (ps : List Production) : Except PyError (Option Sym) :=
  match ps with
  | [] => Except.error (PyError.indexError "list index out of range")
  | p :: _ => Except.ok (some p.symbol)

/-- Start-symbol determination in Grammar.__init__: a truthy string start
symbol selects the last production whose LHS bears that name (the loop has
no break and no failure branch, so a missing name leaves the attribute
unset, modelled as none); an empty string is falsy and falls back to the
default; a symbol object is taken as given. -/
def determineStart (ps : List Production) (sp : StartParam) :
    Except PyError (Option Sym) :=
  match sp with
  | StartParam.bySymbol sym => Except.ok (some sym)
  | StartParam.byName s =>
      if s = "" then defaultStart ps
      else Except.ok (((ps.filter (fun p => p.symbol.name == s)).getLast?).map
        (fun p => p.symbol))
  | StartParam.noStart => defaultStart ps

/-- The largest object identity occurring in a production. -/
def prodMaxSid (p : Production) : Nat :=
  (p.rhs.map (fun s => s.sid)).foldl Nat.max p.symbol.sid

/-- A fresh-identity base strictly above the singletons and every input
symbol, modelling that id() of a newly allocated object differs from all
live objects. -/
def nextSidBase (ps : List Production) : Nat :=
  ((ps.map prodMaxSid).foldl Nat.max 3) + 1

/-- The fully constructed Grammar surface the downstream table builder
consumes. -/
structure Grammar where
  productions : List Production
  terminals : List Sym
  nonterminals : List Sym
  symbols_by_name : SDict Sym
  start_symbol : Sym
  filePath : String
deriving Repr, DecidableEq

instance : Inhabited Grammar :=
  ⟨{ productions := [], terminals := [], nonterminals := [],
     symbols_by_name := [], start_symbol := EMPTY, filePath := "" }⟩

/-- Grammar.__init__ plus _init_grammar, end to end:
realpath on the file path; PGFile.collect_symbols on the user productions
(its dict results are recomputed later but its failures abort); start-symbol
determination; insertion of production 0 (S' to start symbol then STOP);
_collect_grammar_symbols; terminal/nonterminal set extraction; injection of
the EMPTY/EOF/STOP singletons; the recognizer check (unless suppressed);
reference resolution; terminal-production pruning; enumeration; and keyword
normalization, whose in-place mutation of shared terminal objects is
modelled by mapping the same rewrite over every alias. The recognizers
argument is accepted and discarded exactly as PGFile.__init__ discards
it. -/
def sbn1Of (st1 : CollectSt) : SDict Sym :=
  dinsert (dinsert (dinsert st1.sbn "EMPTY" EMPTY) "EOF" EOF) "STOP" STOP

def terminals0Of (st1 : CollectSt) : List Sym :=
  (dvalues st1.sbn).filter (fun s => decide (s.kind = SymKind.terminal))

def nonterminals0Of (st1 : CollectSt) : List Sym :=
  (dvalues st1.sbn).filter (fun s => decide (s.kind = SymKind.nonterminal))

def terminals1Of (st1 : CollectSt) : List Sym :=
  symSetUpdate (terminals0Of st1) [EMPTY, EOF, STOP]

def construct (userProds : List Production) (filePath : Option String)
    (_recognizers : Option (SDict Recog)) (startParam : StartParam)
    (noCheckRecognizers : Bool) : Except PyError Grammar :=
  match realpathModel filePath with
  | Except.error e => Except.error e
  | Except.ok fp =>
  match collectLoop { sbn := [], rtt := [], nextSid := nextSidBase userProds } userProds with
  | Except.error e => Except.error e
  | Except.ok st0 =>
  match determineStart userProds startParam with
  | Except.error e => Except.error e
  | Except.ok startOpt =>
  match startOpt with
  | none => Except.error (PyError.attributeError "start_symbol")
  | some startSym =>
  match collectLoop { sbn := [], rtt := [], nextSid := st0.nextSid }
      (mkProduction AUGSYMBOL [startSym, STOP] :: userProds) with
  | Except.error e => Except.error e
  | Except.ok st1 =>
  match (if noCheckRecognizers then Except.ok ()
         else checkConnectRecognizers (terminals1Of st1)) with
  | Except.error e => Except.error e
  | Except.ok _ =>
  match resolveLoop (sbn1Of st1) st1.rtt (mkProduction AUGSYMBOL [startSym, STOP] :: userProds)
      { terminals := terminals1Of st1, recToTerm := [] } with
  | Except.error e => Except.error e
  | Except.ok (prods1, rst) =>
  match kwKey rst.terminals with
  | Except.error e => Except.error e
  | Except.ok kw =>
  Except.ok
    { productions := (enumerateLoop [] 0 (pruneTerminalProductions prods1)).map (fun p =>
        { p with symbol := kwApply kw p.symbol, rhs := p.rhs.map (kwApply kw) }),
      terminals := rst.terminals.map (kwApply kw),
      nonterminals := (nonterminals0Of st1).map (kwApply kw),
      symbols_by_name := (sbn1Of st1).map (fun e => (e.1, kwApply kw e.2)),
      start_symbol := kwApply kw startSym,
      filePath := fp }

/-- Extraction of the grammar from a successful construction (used to state
closed theorems about concrete inputs). -/
def forceOk (x : Except PyError Grammar) : Grammar :=
  match x with
  | Except.ok g => g
  | Except.error _ => default

/-- All symbol instances reachable from the sets and the name index of a
constructed grammar. -/
def surface (g : Grammar) : List Sym :=
  g.terminals ++ g.nonterminals ++ dvalues g.symbols_by_name

/-! ## Concrete objects used by counterexamples and witnesses -/

/-- A literal terminal named a (as built by Terminal with its default
string recognizer). -/
def tA : Sym := mkTerminal 100 "a" none

/-- A literal terminal named b. -/
def tB : Sym := mkTerminal 101 "b" none

/-- A user nonterminal named S. -/
def symS : Sym := mkNonTerminal 10 "S"

/-- The one-production grammar S -> a, as Grammar.from_struct would build it
(create_productions turns the string into a Terminal). -/
def psW : List Production := [mkProduction symS [tA]]

/-- The grammar constructed from the one-production grammar S to a with
recognizer checking suppressed. -/
def gW : Grammar := forceOk (construct psW (some "g") none StartParam.noStart true)

/-! ## ProductionRHS lemmas (claims C3 and C10) -/

/-- The filtered length of a backing list, under the sanity condition that
every element named EMPTY is the EMPTY singleton (user rule names may not be
EMPTY, so the only live symbol with that name is the singleton): the
name-counting __len__ agrees with counting elements that are not the EMPTY
object. -/
lemma rhsLen_eq_filter_length (l : List Sym)
    (hname : ∀ s ∈ l, s.name = "EMPTY" → s = EMPTY) :
    rhsLen l = (l.filter (fun s => s != EMPTY)).length := by
  induction l with
  | nil => rfl
  | cons s l ih =>
      have hs : s.name = "EMPTY" → s = EMPTY := hname s (by simp)
      have hl : ∀ x ∈ l, x.name = "EMPTY" → x = EMPTY :=
        fun x hx hx2 => hname x (by simp [hx]) hx2
      have ih' := ih hl
      have hcnt : rhsEmptyCount l ≤ l.length := List.length_filter_le _ _
      by_cases he : s = EMPTY
      · subst he
        simp only [rhsLen, rhsEmptyCount, List.filter_cons, List.length_cons] at *
        norm_num [EMPTY, mkTerminal] at *
        omega
      · have hn : (s.name == "EMPTY") = false := by
          simp only [beq_eq_false_iff_ne, ne_eq]
          intro hcon
          exact he (hs hcon)
        have hne : (s != EMPTY) = true := by simpa [bne_iff_ne] using he
        simp only [rhsLen, rhsEmptyCount, List.filter_cons, hn, hne, List.length_cons,
          Bool.false_eq_true, if_false, if_true] at *
        omega

/-- Filtering a front-plus-EMPTY-pad list keeps exactly the front. -/
lemma filter_append_pad (front pad : List Sym) (hfront : ∀ s ∈ front, s ≠ EMPTY)
    (hpad : ∀ s ∈ pad, s = EMPTY) :
    (front ++ pad).filter (fun s => s != EMPTY) = front := by
  rw [List.filter_append]
  have h1 : front.filter (fun s => s != EMPTY) = front := by
    apply List.filter_eq_self.mpr
    intro a ha
    simpa [bne_iff_ne] using hfront a ha
  have h2 : pad.filter (fun s => s != EMPTY) = [] := by
    apply List.filter_eq_nil_iff.mpr
    intro a ha
    simp [bne_iff_ne, hpad a ha]
  rw [h1, h2, List.append_nil]

/-- Indexing into a front-plus-EMPTY-pad list below the front length yields
the front element. -/
lemma rhsGet_append_pad (front pad : List Sym) (hfront : ∀ s ∈ front, s ≠ EMPTY)
    (_hpad : ∀ s ∈ pad, s = EMPTY) :
    ∀ i, i < front.length → rhsGet (front ++ pad) i = front[i]? := by
  induction front with
  | nil => intro i hi; simp at hi
  | cons f fr ih =>
      intro i hi
      match i with
      | 0 =>
          have hf : (f != EMPTY) = true := by
            simpa [bne_iff_ne] using hfront f (by simp)
          simp [rhsGet, List.find?, hf]
      | Nat.succ j =>
          have hfr : ∀ s ∈ fr, s ≠ EMPTY := fun s hx => hfront s (by simp [hx])
          have hj : j < fr.length := by simpa using hi
          have := ih hfr j hj
          simpa [rhsGet, List.drop] using this

/-- C3. The claim states that for every index i strictly below the filtered
length, ProductionRHS indexing at i yields the (i+1)-th non-EMPTY element,
regardless of where EMPTY elements occur in the backing list. It is false:
on the backing list [EMPTY, a, b] the filtered length is 2 and the second
non-EMPTY element is b, but indexing at 1 lands on a (the getitem loop only
skips EMPTY forward from the requested backing position; it does not shift
by the number of EMPTYs before it). -/
theorem c3_rhs_transparency_counterexample :
    rhsLen [EMPTY, tA, tB] = 2 ∧
    ([EMPTY, tA, tB].filter (fun s => s != EMPTY)) = [tA, tB] ∧
    rhsGet [EMPTY, tA, tB] 1 = some tA ∧
    tA ≠ tB := by decide

/-- C3 (amended). The reported ProductionRHS length equals the number of
non-EMPTY elements (given that any element named EMPTY is the EMPTY
singleton, which construction guarantees since EMPTY is a reserved name);
indexing behaves as if the EMPTY elements were absent whenever the EMPTY
elements occur only after all non-EMPTY elements of the backing list (in
particular for the forms the compiler itself builds, where EMPTY is the sole
element), the general behaviour of indexing being to return the first
non-EMPTY element at or after the requested backing position. -/
theorem c3_rhs_transparency_amended (l : List Sym)
    (hname : ∀ s ∈ l, s.name = "EMPTY" → s = EMPTY) :
    rhsLen l = (l.filter (fun s => s != EMPTY)).length ∧
    (∀ front pad, l = front ++ pad → (∀ s ∈ front, s ≠ EMPTY) → (∀ s ∈ pad, s = EMPTY) →
      ∀ i, i < rhsLen l → rhsGet l i = (l.filter (fun s => s != EMPTY))[i]?) := by
  refine ⟨rhsLen_eq_filter_length l hname, ?_⟩
  intro front pad hsplit hfront hpad i hi
  subst hsplit
  have hfilter := filter_append_pad front pad hfront hpad
  have hlen := rhsLen_eq_filter_length (front ++ pad) hname
  rw [hfilter] at hlen
  rw [hfilter]
  exact rhsGet_append_pad front pad hfront hpad i (hlen ▸ hi)

/-- C3 witness: on the backing list [a, EMPTY] the amended statement gives
length 1 and index 0 landing on a. -/
theorem c3_rhs_transparency_witness :
    rhsLen [tA, EMPTY] = 1 ∧ rhsGet [tA, EMPTY] 0 = some tA := by
  have h := c3_rhs_transparency_amended [tA, EMPTY] (by decide)
  have h1 : rhsLen [tA, EMPTY] = 1 := by
    rw [h.1]; decide
  refine ⟨h1, ?_⟩
  have h2 := h.2 [tA] [EMPTY] rfl (by decide) (by decide) 0 (by rw [h1]; decide)
  rw [h2]; decide

/-- C10. The claim states that indexing a ProductionRHS at any non-negative
position at or beyond its EMPTY-filtered length returns None. It is false:
on the backing list [EMPTY, a] the filtered length is 1, yet indexing at 1
returns a (the skip loop can walk onto a trailing non-EMPTY element). -/
theorem c10_out_of_range_counterexample :
    rhsLen [EMPTY, tA] = 1 ∧ rhsGet [EMPTY, tA] 1 = some tA := by decide

/-- C10 (amended). Out-of-range ProductionRHS indexing is total and returns
None at every position at or beyond the backing (unfiltered) length: the
IndexError of the underlying list access is caught and turned into None
rather than escaping; between the filtered and the backing length the access
may still return a trailing non-EMPTY element. -/
theorem c10_out_of_range_amended (l : List Sym) (i : Nat) (h : l.length ≤ i) :
    rhsGet l i = none := by
  unfold rhsGet
  rw [List.drop_eq_nil_of_le h]
  rfl

/-- C10 witness: position 2 of the two-element backing list [EMPTY, a]
yields None. -/
theorem c10_out_of_range_witness : rhsGet [EMPTY, tA] 2 = none :=
  c10_out_of_range_amended [EMPTY, tA] 2 (by decide)

/-! ## Keyword normalization (claim C4) -/

/-- C4. If a KEYWORD terminal with a regex recognizer is present, the
keyword pass succeeds and rewrites, in place, every terminal whose string
recognizer value is fully matched by the KEYWORD pattern at position 0 into
a word-boundary regex recognizer of that literal with the literal's own
ignore-case flag, setting the keyword flag; and with the KEYWORD identifier
pattern the literal "if" fully matches while the resulting word-boundary
recognizer yields no match on "ifx" at position 0. -/
theorem c4_keyword_normalization (terms : List Sym) (kt : Sym) (r : PRegex) (kic : Bool)
    (hfind : terms.find? (fun t => t.name == "KEYWORD") = some kt)
    (hrec : kt.recognizer = some (Recog.regexRec r kic)) :
    (∃ terms', fixKeywordTerminals terms = Except.ok terms' ∧
      terms'.length = terms.length ∧
      ∀ (i : Nat) (t : Sym) (v : String) (ic : Bool),
        terms[i]? = some t → t.recognizer = some (Recog.strRec v ic) →
        regexMatch r kic v 0 = some v →
        terms'[i]? = some { t with
          recognizer := some (Recog.regexRec (PRegex.wordBoundaryLit v) ic),
          keyword := true }) ∧
    regexMatch PRegex.identWord false "if" 0 = some "if" ∧
    regexMatch (PRegex.wordBoundaryLit "if") false "ifx" 0 = none := by
  refine ⟨?_, by decide, by decide⟩
  refine ⟨terms.map (kwRewriteTerm r kic), ?_, by simp, ?_⟩
  · simp only [fixKeywordTerminals, kwKey, hfind, hrec]
  · intro i t v ic hget hstr hmatch
    rw [List.getElem?_map, hget]
    simp [kwRewriteTerm, hstr, hmatch]

/-- The KEYWORD terminal of the claim's scenario. -/
def ktW : Sym := mkTerminal 20 "KEYWORD" (some (Recog.regexRec PRegex.identWord false))

/-- The literal terminal "if" of the claim's scenario (default string
recognizer). -/
def ifTerm : Sym := mkTerminal 21 "if" none

/-- C4 witness: in the terminal list [KEYWORD, "if"] the pass rewrites the
"if" terminal to the word-boundary recognizer with the keyword flag. -/
theorem c4_keyword_normalization_witness :
    (∃ terms', fixKeywordTerminals [ktW, ifTerm] = Except.ok terms' ∧
      terms'[1]? = some { ifTerm with
        recognizer := some (Recog.regexRec (PRegex.wordBoundaryLit "if") false),
        keyword := true }) ∧
    regexMatch (PRegex.wordBoundaryLit "if") false "ifx" 0 = none := by
  have h := c4_keyword_normalization [ktW, ifTerm] ktW PRegex.identWord false
    (by decide) (by decide)
  obtain ⟨⟨terms', h1, _, h2⟩, _, h4⟩ := h
  exact ⟨⟨terms', h1, h2 1 ifTerm "if" false (by decide) (by decide) (by decide)⟩, h4⟩

/-! ## The recognizer-connection bug (claim C5) -/

/-- C5. The claim states that with recognizer checking enabled a Terminal
named in the caller-supplied recognizer override map gets rebound to the
override, and a Terminal with no recognizer raises GrammarError. In this
snapshot the code cannot do either: PGFile.__init__ accepts the recognizers
argument and discards it without storing the attribute, so
_check_connect_recognizers faults with AttributeError on its first read of
self.recognizers (the terminals set is never empty there, as the EMPTY, EOF
and STOP singletons were just added). Constructing the grammar S -> a with
an override for the terminal a therefore raises AttributeError instead of
rebinding. -/
theorem c5_recognizer_override_unreachable :
    construct psW (some "g.pg") (some [("a", Recog.strRec "a" false)])
        StartParam.noStart false
      = Except.error (PyError.attributeError "recognizers") := by decide

/-! ## Repetition desugaring (claims C6, C7, C9) -/

/-- The auxiliary NonTerminal generated for X+ without separator: name is
the base name with suffix _1 and the collect action. -/
def auxOneSym (g : Sym) (sid : Nat) : Sym :=
  { mkNonTerminal sid (g.name ++ "_1") with actionName := some "collect" }

/-- The auxiliary NonTerminal generated for X* without separator: name is
the base name with suffix _0 (its action is a closure, so no action
name). -/
def auxZeroSym (g : Sym) (sid : Nat) : Sym := mkNonTerminal sid (g.name ++ "_0")

/-- The two productions generated for X+ without separator. -/
def oneOrMoreProds (g : Sym) (sid : Nat) : List Production :=
  [mkProduction (auxOneSym g sid) [auxOneSym g sid, g],
   mkProduction (auxOneSym g sid) [g]]

/-- C6. Desugaring X+ (same base symbol, same operator, no separator) twice
within one compilation is memoized: the first call creates the auxiliary
nonterminal named X_1 with its two productions, the second call returns the
same auxiliary instance and leaves the side-table unchanged, so act_pgfile
appends exactly one copy of the two generating productions to the final
production list. -/
theorem c6_repetition_memoized (g : Sym) (n : Nat) :
    ∃ ctx1,
      makeOneOrMore ⟨[], n⟩ g none = Except.ok (auxOneSym g n, ctx1) ∧
      makeOneOrMore ctx1 g none = Except.ok (auxOneSym g n, ctx1) ∧
      ctx1.newProductions = [(g.name ++ "_1", auxOneSym g n, oneOrMoreProds g n)] ∧
      actPgfileExtend [] ctx1 = oneOrMoreProds g n ∧
      (oneOrMoreProds g n).length = 2 ∧
      (auxOneSym g n).name = g.name ++ "_1" := by
  refine ⟨⟨[(g.name ++ "_1", auxOneSym g n, oneOrMoreProds g n)], n + 1⟩, rfl, ?_, rfl, ?_, rfl, rfl⟩
  · simp [makeOneOrMore, makeRepetition, lookupNewProd, List.find?]
  · simp [actPgfileExtend]

/-- C7. Desugaring X* without separator from a fresh compilation context
contributes exactly four productions: the X_1 pair (X_1 to X_1 X, X_1 to X)
and the X_0 pair (X_0 to X_1, carrying the nops flag that suppresses the
prefer-shift heuristic, and X_0 to EMPTY, which the Production constructor
stores as the epsilon production with empty RHS), for every base symbol. -/
theorem c7_zero_or_more_shape (g : Sym) (n : Nat) :
    (makeZeroOrMore ⟨[], n⟩ g none = Except.ok (auxZeroSym g n,
      { newProductions := [
          (g.name ++ "_1", auxOneSym g (n + 1), oneOrMoreProds g (n + 1)),
          (g.name ++ "_0", auxZeroSym g n,
            [mkProductionNops (auxZeroSym g n) [auxOneSym g (n + 1)],
             mkProduction (auxZeroSym g n) [EMPTY]])],
        nextSid := n + 2 })) ∧
    (mkProductionNops (auxZeroSym g n) [auxOneSym g (n + 1)]).nops = true ∧
    (mkProduction (auxZeroSym g n) [EMPTY]).rhs = [] ∧
    (([(g.name ++ "_1", auxOneSym g (n + 1), oneOrMoreProds g (n + 1)),
       (g.name ++ "_0", auxZeroSym g n,
         [mkProductionNops (auxZeroSym g n) [auxOneSym g (n + 1)],
          mkProduction (auxZeroSym g n) [EMPTY]])] :
       List (String × Sym × List Production)).map (fun e => e.2.2)).flatten.length = 4 := by
  refine ⟨rfl, rfl, rfl, by simp [oneOrMoreProds]⟩

/-- C9. Applying a separator modifier to the optional operator raises
GrammarError: from a fresh compilation context, make_optional with any base
symbol and any separator fails with the GrammarError raised inside its
production callable; and in every context whatsoever a successful
make_optional call with a separator adds no productions (it can only return
a previously memoized auxiliary), so optionality and separation are never
combined into generated productions. -/
theorem c9_optional_separator_rejected (g sep : Sym) (n : Nat) :
    makeOptional ⟨[], n⟩ g (some sep) = Except.error (PyError.grammarError
      ("Repetition modifier not allowed for optional (?) for symbol " ++ g.name)) ∧
    (∀ ctx nt ctx', makeOptional ctx g (some sep) = Except.ok (nt, ctx') →
      ctx'.newProductions = ctx.newProductions) := by
  constructor
  · rfl
  · intro ctx nt ctx' h
    simp only [makeOptional, makeRepetition] at h
    split at h
    · simp only [Except.ok.injEq, Prod.mk.injEq] at h
      rw [← h.2]
    · simp at h

/-- A base symbol for the C9 witness. -/
def gA : Sym := mkNonTerminal 30 "A"

/-- A separator symbol for the C9 witness. -/
def gSep : Sym := mkNonTerminal 31 "comma"

/-- A memoized auxiliary for the C9 witness's already-cached case. -/
def ntOptMemo : Sym := mkNonTerminal 32 "A_opt_comma"

/-- A context in which the name A_opt_comma is already memoized. -/
def ctxMemo : RepCtx := ⟨[("A_opt_comma", ntOptMemo, [])], 40⟩

/-- C9 witness: desugaring A?[comma] from a fresh context raises the
GrammarError, and even in the contrived context where the generated name is
already memoized a successful call leaves the production table unchanged. -/
theorem c9_optional_separator_witness :
    makeOptional ⟨[], 0⟩ gA (some gSep) = Except.error (PyError.grammarError
      "Repetition modifier not allowed for optional (?) for symbol A") ∧
    ctxMemo.newProductions = ctxMemo.newProductions := by
  have h := c9_optional_separator_rejected gA gSep 0
  exact ⟨h.1, h.2 ctxMemo ntOptMemo ctxMemo (by decide)⟩

/-! ## Dictionary lemmas -/

/-- Every entry's value is a symbol bearing the entry's key as its name. -/
def DictNamesOk (d : SDict Sym) : Prop := ∀ e ∈ d, e.2.name = e.1

/-- The keys of the dictionary are pairwise distinct. -/
def DictKeysNodup {α : Type} (d : SDict α) : Prop := (d.map (fun e => e.1)).Nodup

lemma dcontains_iff_lookup_isSome {α : Type} (d : SDict α) (k : String) :
    dcontains d k = true ↔ (dlookup d k).isSome := by
  induction d with
  | nil => simp [dcontains, dlookup]
  | cons e d ih =>
      by_cases h : (e.1 == k) = true
      · simp [dcontains, dlookup, h]
      · have h' : (e.1 == k) = false := by simpa using h
        simp [dcontains, dlookup, h', ih]

lemma dlookup_none_of_dcontains_false {α : Type} (d : SDict α) (k : String)
    (h : dcontains d k = false) : dlookup d k = none := by
  cases hl : dlookup d k with
  | none => rfl
  | some v =>
      have : dcontains d k = true := (dcontains_iff_lookup_isSome d k).mpr (by simp [hl])
      rw [this] at h
      exact absurd h (by simp)

lemma dcontains_false_of_dlookup_none {α : Type} (d : SDict α) (k : String)
    (h : dlookup d k = none) : dcontains d k = false := by
  cases hc : dcontains d k with
  | false => rfl
  | true =>
      have := (dcontains_iff_lookup_isSome d k).mp hc
      rw [h] at this
      exact absurd this (by simp)

lemma dinsert_of_not_contains {α : Type} (d : SDict α) (k : String) (v : α)
    (h : dcontains d k = false) : dinsert d k v = d ++ [(k, v)] := by
  unfold dinsert
  rw [h]
  simp

lemma dlookup_cons_pos {α : Type} (e : String × α) (d : SDict α) (k : String)
    (h : (e.1 == k) = true) : dlookup (e :: d) k = some e.2 := by
  simp [dlookup, h]

lemma dlookup_cons_neg {α : Type} (e : String × α) (d : SDict α) (k : String)
    (h : (e.1 == k) = false) : dlookup (e :: d) k = dlookup d k := by
  simp [dlookup, h]

lemma dlookup_overwrite_self {α : Type} (d : SDict α) (k : String) (v : α)
    (h : dcontains d k = true) :
    dlookup (d.map (fun e => if e.1 == k then (k, v) else e)) k = some v := by
  induction d with
  | nil => simp [dcontains] at h
  | cons e d ih =>
      by_cases he : (e.1 == k) = true
      · rw [List.map_cons, if_pos he, dlookup_cons_pos _ _ _ (by simp)]
      · have he' : (e.1 == k) = false := by simpa using he
        have h' : dcontains d k = true := by
          simpa [dcontains, he'] using h
        rw [List.map_cons, if_neg (by simp [he']), dlookup_cons_neg _ _ _ he']
        exact ih h'

lemma dlookup_overwrite_ne {α : Type} (d : SDict α) (k k' : String) (v : α)
    (h : k' ≠ k) :
    dlookup (d.map (fun e => if e.1 == k then (k, v) else e)) k' = dlookup d k' := by
  induction d with
  | nil => rfl
  | cons e d ih =>
      by_cases he : (e.1 == k) = true
      · have hek : e.1 = k := by simpa using he
        have h1 : ((k, v).1 == k') = false := by simp [Ne.symm h]
        have h2 : (e.1 == k') = false := by simp [hek, Ne.symm h]
        rw [List.map_cons, if_pos he, dlookup_cons_neg _ _ _ h1,
          dlookup_cons_neg _ _ _ h2]
        exact ih
      · have he' : (e.1 == k) = false := by simpa using he
        by_cases he2 : (e.1 == k') = true
        · rw [List.map_cons, if_neg (by simp [he']), dlookup_cons_pos _ _ _ he2,
            dlookup_cons_pos _ _ _ he2]
        · have he2' : (e.1 == k') = false := by simpa using he2
          rw [List.map_cons, if_neg (by simp [he']), dlookup_cons_neg _ _ _ he2',
            dlookup_cons_neg _ _ _ he2']
          exact ih

lemma dlookup_append_single_ne {α : Type} (d : SDict α) (k k' : String) (v : α)
    (h : k' ≠ k) : dlookup (d ++ [(k, v)]) k' = dlookup d k' := by
  induction d with
  | nil =>
      rw [List.nil_append, dlookup_cons_neg _ _ _ (by simp [Ne.symm h])]
  | cons e d ih =>
      by_cases he : (e.1 == k') = true
      · rw [List.cons_append, dlookup_cons_pos _ _ _ he, dlookup_cons_pos _ _ _ he]
      · have he' : (e.1 == k') = false := by simpa using he
        rw [List.cons_append, dlookup_cons_neg _ _ _ he', dlookup_cons_neg _ _ _ he']
        exact ih

lemma dlookup_append_single_self {α : Type} (d : SDict α) (k : String) (v : α)
    (hn : dlookup d k = none) : dlookup (d ++ [(k, v)]) k = some v := by
  induction d with
  | nil => rw [List.nil_append, dlookup_cons_pos _ _ _ (by simp)]
  | cons e d ih =>
      by_cases he : (e.1 == k) = true
      · rw [dlookup_cons_pos _ _ _ he] at hn
        exact absurd hn (by simp)
      · have he' : (e.1 == k) = false := by simpa using he
        rw [dlookup_cons_neg _ _ _ he'] at hn
        rw [List.cons_append, dlookup_cons_neg _ _ _ he']
        exact ih hn

lemma dlookup_dinsert_self {α : Type} (d : SDict α) (k : String) (v : α) :
    dlookup (dinsert d k v) k = some v := by
  unfold dinsert
  by_cases h : dcontains d k = true
  · rw [if_pos h]
    exact dlookup_overwrite_self d k v h
  · have h' : dcontains d k = false := by
      cases hx : dcontains d k with
      | false => rfl
      | true => exact absurd hx h
    rw [h']
    simp only [Bool.false_eq_true, if_false]
    exact dlookup_append_single_self d k v (dlookup_none_of_dcontains_false d k h')

lemma dlookup_dinsert_ne {α : Type} (d : SDict α) (k k' : String) (v : α)
    (h : k' ≠ k) : dlookup (dinsert d k v) k' = dlookup d k' := by
  unfold dinsert
  by_cases hc : dcontains d k = true
  · rw [if_pos hc]
    exact dlookup_overwrite_ne d k k' v h
  · have h' : dcontains d k = false := by
      cases hx : dcontains d k with
      | false => rfl
      | true => exact absurd hx hc
    rw [h']
    simp only [Bool.false_eq_true, if_false]
    exact dlookup_append_single_ne d k k' v h

lemma dlookup_mem {α : Type} (d : SDict α) (k : String) (v : α)
    (h : dlookup d k = some v) : (k, v) ∈ d ∨ ∃ e ∈ d, e.1 = k ∧ e.2 = v := by
  refine Or.inr ?_
  induction d with
  | nil => simp [dlookup] at h
  | cons e d ih =>
      by_cases he : (e.1 == k) = true
      · rw [dlookup_cons_pos _ _ _ he] at h
        exact ⟨e, by simp, by simpa using he, by simpa using h⟩
      · have he' : (e.1 == k) = false := by simpa using he
        rw [dlookup_cons_neg _ _ _ he'] at h
        obtain ⟨e2, h1, h2, h3⟩ := ih h
        exact ⟨e2, by simp [h1], h2, h3⟩

lemma dlookup_value_name (d : SDict Sym) (hnames : DictNamesOk d) (k : String) (v : Sym)
    (h : dlookup d k = some v) : v.name = k := by
  rcases dlookup_mem d k v h with h2 | ⟨e, he, hk, hv⟩
  · exact hnames _ h2
  · rw [← hv, hnames e he, hk]

lemma dlookup_of_mem_entry {α : Type} (d : SDict α) (hnodup : DictKeysNodup d)
    (e : String × α) (he : e ∈ d) : dlookup d e.1 = some e.2 := by
  induction d with
  | nil => simp at he
  | cons f d ih =>
      rcases List.mem_cons.mp he with h | h
      · subst h
        exact dlookup_cons_pos _ _ _ (by simp)
      · have hf : f.1 ≠ e.1 := by
          intro hcon
          have : e.1 ∈ d.map (fun e => e.1) := List.mem_map.mpr ⟨e, h, rfl⟩
          rw [← hcon] at this
          exact (List.nodup_cons.mp hnodup).1 this
        rw [dlookup_cons_neg _ _ _ (by simp [hf])]
        exact ih (List.nodup_cons.mp hnodup).2 h

lemma dvalue_lookup_self (d : SDict Sym) (hnames : DictNamesOk d)
    (hnodup : DictKeysNodup d) (v : Sym) (hv : v ∈ dvalues d) :
    dlookup d v.name = some v := by
  obtain ⟨e, he, hev⟩ := List.mem_map.mp hv
  have := dlookup_of_mem_entry d hnodup e he
  rw [← hev, hnames e he] at *
  simpa [hev] using this

lemma namesOk_dinsert (d : SDict Sym) (k : String) (v : Sym)
    (hd : DictNamesOk d) (hv : v.name = k) : DictNamesOk (dinsert d k v) := by
  unfold dinsert
  by_cases h : dcontains d k = true
  · rw [if_pos h]
    intro e he
    obtain ⟨e0, he0, hee⟩ := List.mem_map.mp he
    by_cases hk : (e0.1 == k) = true
    · rw [← hee]
      simp [hk, hv]
    · have hk' : (e0.1 == k) = false := by simpa using hk
      rw [← hee]
      simp only [hk', Bool.false_eq_true, if_false]
      exact hd e0 he0
  · have h' : dcontains d k = false := by
      cases hx : dcontains d k with
      | false => rfl
      | true => exact absurd hx h
    rw [h']
    simp only [Bool.false_eq_true, if_false]
    intro e he
    rcases List.mem_append.mp he with h2 | h2
    · exact hd e h2
    · simp at h2
      rw [h2]
      exact hv

lemma keysNodup_dinsert {α : Type} (d : SDict α) (k : String) (v : α)
    (hd : DictKeysNodup d) : DictKeysNodup (dinsert d k v) := by
  unfold dinsert
  by_cases h : dcontains d k = true
  · rw [if_pos h]
    have : (d.map (fun e => if e.1 == k then (k, v) else e)).map (fun e => e.1)
        = d.map (fun e => e.1) := by
      rw [List.map_map]
      apply List.map_congr_left
      intro e _
      by_cases hk : (e.1 == k) = true
      · have hek : e.1 = k := by simpa using hk
        show (if e.1 == k then (k, v) else e).1 = e.1
        rw [if_pos hk]
        exact hek.symm
      · have hk' : (e.1 == k) = false := by simpa using hk
        show (if e.1 == k then (k, v) else e).1 = e.1
        rw [if_neg (by simp [hk'])]
    unfold DictKeysNodup
    rw [this]
    exact hd
  · have h' : dcontains d k = false := by
      cases hx : dcontains d k with
      | false => rfl
      | true => exact absurd hx h
    rw [h']
    simp only [Bool.false_eq_true, if_false]
    unfold DictKeysNodup
    rw [List.map_append]
    simp only [List.map_cons, List.map_nil]
    rw [List.nodup_append]
    refine ⟨hd, by simp, ?_⟩
    intro a ha
    simp only [List.mem_singleton]
    intro hb
    obtain ⟨e, he, hek⟩ := List.mem_map.mp ha
    have hl := dlookup_of_mem_entry d hd e he
    rw [hek, hb] at hl
    rw [dlookup_none_of_dcontains_false d k h'] at hl
    simp at hl

lemma dvalues_dinsert_subset {α : Type} (d : SDict α) (k : String) (v : α) (w : α)
    (hw : w ∈ dvalues (dinsert d k v)) : w = v ∨ w ∈ dvalues d := by
  unfold dinsert at hw
  by_cases h : dcontains d k = true
  · rw [if_pos h] at hw
    obtain ⟨e, he, hee⟩ := List.mem_map.mp hw
    obtain ⟨e0, he0, he0e⟩ := List.mem_map.mp he
    by_cases hk : (e0.1 == k) = true
    · rw [← he0e] at hee
      simp only [hk, if_true] at hee
      exact Or.inl (by simp [← hee])
    · have hk' : (e0.1 == k) = false := by simpa using hk
      rw [← he0e] at hee
      simp only [hk', Bool.false_eq_true, if_false] at hee
      exact Or.inr (List.mem_map.mpr ⟨e0, he0, hee⟩)
  · have h' : dcontains d k = false := by
      cases hx : dcontains d k with
      | false => rfl
      | true => exact absurd hx h
    rw [h'] at hw
    simp only [Bool.false_eq_true, if_false] at hw
    unfold dvalues at hw
    rw [List.map_append] at hw
    rcases List.mem_append.mp hw with h2 | h2
    · exact Or.inr h2
    · simp at h2
      exact Or.inl h2

lemma dlookup_map_value {α β : Type} (d : SDict α) (f : α → β) (k : String) :
    dlookup (d.map (fun e => (e.1, f e.2))) k = (dlookup d k).map f := by
  induction d with
  | nil => rfl
  | cons e d ih =>
      by_cases he : (e.1 == k) = true
      · rw [List.map_cons, dlookup_cons_pos _ _ _ (by simpa using he),
          dlookup_cons_pos _ _ _ he]
        rfl
      · have he' : (e.1 == k) = false := by simpa using he
        rw [List.map_cons, dlookup_cons_neg _ _ _ (by simpa using he'),
          dlookup_cons_neg _ _ _ he']
        exact ih

lemma dvalues_map_value {α β : Type} (d : SDict α) (f : α → β) :
    dvalues (d.map (fun e => (e.1, f e.2))) = (dvalues d).map f := by
  unfold dvalues
  rw [List.map_map, List.map_map]
  rfl

/-! ## Symbol-set lemmas -/

lemma symSetAdd_append (s : List Sym) (x : Sym)
    (h : ∀ y ∈ s, y.name ≠ x.name) : symSetAdd s x = s ++ [x] := by
  have hc : s.any (fun y => y.name == x.name) = false := by
    rw [List.any_eq_false]
    intro y hy
    simp [h y hy]
  unfold symSetAdd
  rw [hc]
  simp

lemma symSetAdd_mem (s : List Sym) (x y : Sym) (hy : y ∈ s) : y ∈ symSetAdd s x := by
  unfold symSetAdd
  by_cases h : s.any (fun y => y.name == x.name) = true
  · rw [if_pos h]
    exact hy
  · rw [if_neg h]
    exact List.mem_append.mpr (Or.inl hy)

lemma dcontains_dinsert {α : Type} (d : SDict α) (k k' : String) (v : α) :
    dcontains (dinsert d k v) k' = true ↔ (k' = k ∨ dcontains d k' = true) := by
  constructor
  · intro h
    by_cases hk : k' = k
    · exact Or.inl hk
    · refine Or.inr ?_
      have := (dcontains_iff_lookup_isSome _ k').mp h
      rw [dlookup_dinsert_ne d k k' v hk] at this
      exact (dcontains_iff_lookup_isSome d k').mpr this
  · intro h
    rcases h with h | h
    · subst h
      exact (dcontains_iff_lookup_isSome _ k').mpr (by simp [dlookup_dinsert_self])
    · by_cases hk : k' = k
      · subst hk
        exact (dcontains_iff_lookup_isSome _ k').mpr (by simp [dlookup_dinsert_self])
      · have := (dcontains_iff_lookup_isSome d k').mp h
        refine (dcontains_iff_lookup_isSome _ k').mpr ?_
        rw [dlookup_dinsert_ne d k k' v hk]
        exact this

/-! ## Keyword-rewrite preservation lemmas -/

lemma kwRewriteTerm_name (r : PRegex) (kic : Bool) (t : Sym) :
    (kwRewriteTerm r kic t).name = t.name := by
  unfold kwRewriteTerm
  repeat' split
  all_goals rfl

lemma kwRewriteTerm_sid (r : PRegex) (kic : Bool) (t : Sym) :
    (kwRewriteTerm r kic t).sid = t.sid := by
  unfold kwRewriteTerm
  repeat' split
  all_goals rfl

lemma kwRewriteTerm_kind (r : PRegex) (kic : Bool) (t : Sym) :
    (kwRewriteTerm r kic t).kind = t.kind := by
  unfold kwRewriteTerm
  repeat' split
  all_goals rfl

lemma kwApply_name (kw : Option (PRegex × Bool)) (s : Sym) :
    (kwApply kw s).name = s.name := by
  cases kw with
  | none => rfl
  | some p => exact kwRewriteTerm_name p.1 p.2 s

lemma kwApply_sid (kw : Option (PRegex × Bool)) (s : Sym) :
    (kwApply kw s).sid = s.sid := by
  cases kw with
  | none => rfl
  | some p => exact kwRewriteTerm_sid p.1 p.2 s

lemma kwApply_kind (kw : Option (PRegex × Bool)) (s : Sym) :
    (kwApply kw s).kind = s.kind := by
  cases kw with
  | none => rfl
  | some p => exact kwRewriteTerm_kind p.1 p.2 s

lemma kwApply_STOP (kw : Option (PRegex × Bool)) : kwApply kw STOP = STOP := by
  cases kw with
  | none => rfl
  | some p => rfl

/-! ## Collect-phase lemmas -/

/-- The case analysis of the collect body: the registered symbol bears the
production's LHS name, the dictionary is untouched before the final
assignment, and the registered symbol is either the LHS itself (with a
fresh name when the LHS is a Terminal), a reused previously registered
non-Terminal holder, or a freshly promoted NonTerminal. -/
lemma collectNewSymbol_ok (st : CollectSt) (p : Production) (w : Sym) (st1 : CollectSt)
    (hnames : DictNamesOk st.sbn)
    (h : collectNewSymbol st p = Except.ok (w, st1)) :
    w.name = p.symbol.name ∧ st1.sbn = st.sbn ∧
    ((w = p.symbol ∧ (p.symbol.kind = SymKind.terminal →
        dlookup st.sbn p.symbol.name = none)) ∨
     (∃ prev, dlookup st.sbn p.symbol.name = some prev ∧
        prev.kind ≠ SymKind.terminal ∧ w = prev) ∨
     w.kind = SymKind.nonterminal) := by
  unfold collectNewSymbol at h
  split at h
  · split at h
    · split at h
      · rename_i hterm prevSym hl hprev
        simp only [Except.ok.injEq, Prod.mk.injEq] at h
        obtain ⟨hw, hst⟩ := h
        refine ⟨by rw [← hw]; rfl, by rw [← hst], Or.inr (Or.inr (by rw [← hw]; rfl))⟩
      · rename_i hterm prevSym hl hprev
        simp only [Except.ok.injEq, Prod.mk.injEq] at h
        obtain ⟨hw, hst⟩ := h
        have hname : w.name = p.symbol.name := by
          rw [← hw]
          exact dlookup_value_name st.sbn hnames p.symbol.name prevSym hl
        exact ⟨hname, by rw [← hst], Or.inr (Or.inl ⟨prevSym, hl, hprev, hw.symm⟩)⟩
    · split at h
      · split at h
        · exact absurd h (by simp)
        · split at h
          · simp only [Except.ok.injEq, Prod.mk.injEq] at h
            obtain ⟨hw, hst⟩ := h
            exact ⟨by rw [← hw], by rw [← hst], Or.inl ⟨hw.symm, fun _ => by assumption⟩⟩
          · split at h
            · exact absurd h (by simp)
            · simp only [Except.ok.injEq, Prod.mk.injEq] at h
              obtain ⟨hw, hst⟩ := h
              exact ⟨by rw [← hw], by rw [← hst], Or.inl ⟨hw.symm, fun _ => by assumption⟩⟩
      · simp only [Except.ok.injEq, Prod.mk.injEq] at h
        obtain ⟨hw, hst⟩ := h
        exact ⟨by rw [← hw], by rw [← hst], Or.inl ⟨hw.symm, fun _ => by assumption⟩⟩
  · rename_i hterm
    simp only [Except.ok.injEq, Prod.mk.injEq] at h
    obtain ⟨hw, hst⟩ := h
    exact ⟨by rw [← hw], by rw [← hst],
      Or.inl ⟨hw.symm, fun hcon => absurd hcon hterm⟩⟩

/-- A successful collect step installs exactly one dictionary entry, keyed
by the production's LHS name. -/
lemma collectStep_ok (st : CollectSt) (p : Production) (st' : CollectSt)
    (hnames : DictNamesOk st.sbn)
    (h : collectStep st p = Except.ok st') :
    ∃ w, w.name = p.symbol.name ∧ st'.sbn = dinsert st.sbn p.symbol.name w ∧
    ((w = p.symbol ∧ (p.symbol.kind = SymKind.terminal →
        dlookup st.sbn p.symbol.name = none)) ∨
     (∃ prev, dlookup st.sbn p.symbol.name = some prev ∧
        prev.kind ≠ SymKind.terminal ∧ w = prev) ∨
     w.kind = SymKind.nonterminal) := by
  unfold collectStep at h
  split at h
  · exact absurd h (by simp)
  · split at h
    · exact absurd h (by simp)
    · rename_i w0 st1 hc u ha hx
      simp only [Except.ok.injEq] at h
      obtain ⟨hname, hsbn, hcases⟩ := collectNewSymbol_ok st p w0 st1 hnames hc
      refine ⟨w0, hname, ?_, hcases⟩
      rw [← h]
      simp only []
      rw [hsbn, hname]

/-- Generic invariant transfer along the collect loop. -/
lemma collectLoop_induct (ps : List Production) (st st' : CollectSt)
    (h : collectLoop st ps = Except.ok st')
    (hnames : DictNamesOk st.sbn)
    (P : SDict Sym → Prop) (hst : P st.sbn)
    (hstep : ∀ (d : SDict Sym) (p : Production) (w : Sym), p ∈ ps → DictNamesOk d → P d →
      w.name = p.symbol.name →
      ((w = p.symbol ∧ (p.symbol.kind = SymKind.terminal → dlookup d p.symbol.name = none)) ∨
       (∃ prev, dlookup d p.symbol.name = some prev ∧
          prev.kind ≠ SymKind.terminal ∧ w = prev) ∨
       w.kind = SymKind.nonterminal) →
      P (dinsert d p.symbol.name w)) :
    P st'.sbn ∧ DictNamesOk st'.sbn := by
  induction ps generalizing st with
  | nil =>
      unfold collectLoop at h
      simp only [Except.ok.injEq] at h
      rw [← h]
      exact ⟨hst, hnames⟩
  | cons p ps ih =>
      unfold collectLoop at h
      cases hs : collectStep st p with
      | error e => rw [hs] at h; exact absurd h (by simp)
      | ok st1 =>
          rw [hs] at h
          obtain ⟨w, hname, hsbn, hcases⟩ := collectStep_ok st p st1 hnames hs
          have hnames1 : DictNamesOk st1.sbn := by
            rw [hsbn]
            exact namesOk_dinsert st.sbn p.symbol.name w hnames hname
          have hP1 : P st1.sbn := by
            rw [hsbn]
            exact hstep st.sbn p w (by simp) hnames hst hname hcases
          exact ih st1 h hnames1 hP1
            (fun d q u hq => hstep d q u (by simp [hq]))

/-- The collect loop preserves the name/key discipline and key
uniqueness. -/
lemma collectLoop_names_nodup (ps : List Production) (st st' : CollectSt)
    (h : collectLoop st ps = Except.ok st')
    (h1 : DictNamesOk st.sbn) (h2 : DictKeysNodup st.sbn) :
    DictNamesOk st'.sbn ∧ DictKeysNodup st'.sbn := by
  have := collectLoop_induct ps st st' h h1 DictKeysNodup h2
    (fun d p w _ _ hP _ _ => keysNodup_dinsert d p.symbol.name w hP)
  exact ⟨this.2, this.1⟩

/-- Keys only accumulate along the collect loop. -/
lemma collectLoop_contains_mono (ps : List Production) (st st' : CollectSt)
    (h : collectLoop st ps = Except.ok st') (h1 : DictNamesOk st.sbn)
    (k : String) (hk : dcontains st.sbn k = true) : dcontains st'.sbn k = true :=
  (collectLoop_induct ps st st' h h1 (fun d => dcontains d k = true) hk
    (fun d p w _ _ hP _ _ => (dcontains_dinsert d p.symbol.name k w).mpr (Or.inr hP))).1

/-- After the collect loop, every processed production's LHS name is a
key. -/
lemma collectLoop_lhs_registered (ps : List Production) (st st' : CollectSt)
    (h : collectLoop st ps = Except.ok st') (h1 : DictNamesOk st.sbn) :
    ∀ p ∈ ps, dcontains st'.sbn p.symbol.name = true := by
  induction ps generalizing st with
  | nil => intro p hp; simp at hp
  | cons q ps ih =>
      intro p hp
      unfold collectLoop at h
      cases hs : collectStep st q with
      | error e => rw [hs] at h; exact absurd h (by simp)
      | ok st1 =>
          rw [hs] at h
          obtain ⟨w, hname, hsbn, _⟩ := collectStep_ok st q st1 h1 hs
          have hnames1 : DictNamesOk st1.sbn := by
            rw [hsbn]
            exact namesOk_dinsert st.sbn q.symbol.name w h1 hname
          rcases List.mem_cons.mp hp with hq | hq
          · subst hq
            refine collectLoop_contains_mono ps st1 st' h hnames1 p.symbol.name ?_
            rw [hsbn]
            exact (dcontains_dinsert _ _ _ _).mpr (Or.inl rfl)
          · exact ih st1 h hnames1 p hq

/-- Every key present after the collect loop was already present or is the
LHS name of some processed production. -/
lemma collectLoop_keys_from_lhs (ps : List Production) (st st' : CollectSt)
    (h : collectLoop st ps = Except.ok st') (h1 : DictNamesOk st.sbn)
    (k : String) (hk : dcontains st'.sbn k = true) :
    dcontains st.sbn k = true ∨ ∃ p ∈ ps, p.symbol.name = k := by
  have := collectLoop_induct ps st st' h h1
    (fun d => dcontains d k = true → (dcontains st.sbn k = true ∨ ∃ p ∈ ps, p.symbol.name = k))
    (fun hc => Or.inl hc)
    (fun d p w hp _ hP _ _ => by
      intro hc
      rcases (dcontains_dinsert d p.symbol.name k w).mp hc with hkk | hkk
      · exact Or.inr ⟨p, hp, hkk.symm⟩
      · exact hP hkk)
  exact this.1 hk

/-- Along the collect loop, if the entry under the augmented-start name is
a NonTerminal then it remains one (used with production 0 processed first;
needs that no remaining LHS is a bare Reference). -/
lemma collectLoop_aug_nt (ps : List Production) (st st' : CollectSt)
    (h : collectLoop st ps = Except.ok st') (h1 : DictNamesOk st.sbn)
    (hNoRef : ∀ p ∈ ps, p.symbol.kind ≠ SymKind.reference)
    (h0 : ∃ v, dlookup st.sbn augName = some v ∧ v.kind = SymKind.nonterminal) :
    ∃ v, dlookup st'.sbn augName = some v ∧ v.kind = SymKind.nonterminal := by
  refine (collectLoop_induct ps st st' h h1
    (fun d => ∃ v, dlookup d augName = some v ∧ v.kind = SymKind.nonterminal) h0 ?_).1
  intro d p w hp _ hP hname hcases
  by_cases hkey : augName = p.symbol.name
  · obtain ⟨v, hv, hvkind⟩ := hP
    refine ⟨w, by rw [hkey, dlookup_dinsert_self], ?_⟩
    rcases hcases with ⟨hwp, himp⟩ | ⟨prev, hlp, _, hwprev⟩ | hnt
    · rw [hwp]
      cases hkind : p.symbol.kind with
      | terminal =>
          have := himp hkind
          rw [← hkey] at this
          rw [this] at hv
          exact absurd hv (by simp)
      | nonterminal => rfl
      | reference => exact absurd hkind (hNoRef p hp)
    · rw [hwprev]
      rw [← hkey] at hlp
      rw [hv] at hlp
      simp only [Option.some.injEq] at hlp
      rw [← hlp]
      exact hvkind
    · exact hnt
  · obtain ⟨v, hv, hvkind⟩ := hP
    refine ⟨v, ?_, hvkind⟩
    rw [dlookup_dinsert_ne d p.symbol.name augName w hkey]
    exact hv

/-! ## Resolve-phase lemmas -/

/-- A resolved symbol is either the instance registered under its name or
an unregistered Terminal member of the terminals set. -/
def GoodSym (sbn : SDict Sym) (terms : List Sym) (x : Sym) : Prop :=
  dlookup sbn x.name = some x ∨
  (dlookup sbn x.name = none ∧ x.kind = SymKind.terminal ∧ x ∈ terms)

/-- The resolve-state invariant: the terminals set is the pre-resolution
set extended by exactly the values of the rec_to_term cache, whose entries
are unregistered Terminals keyed by their own names, with distinct keys. -/
def RInv (sbn : SDict Sym) (base : List Sym) (st : ResolveSt) : Prop :=
  st.terminals = base ++ st.recToTerm.map (fun e => e.2) ∧
  (∀ e ∈ st.recToTerm, e.2.name = e.1 ∧ dlookup sbn e.1 = none ∧
     e.2.kind = SymKind.terminal) ∧
  DictKeysNodup st.recToTerm

/-- Every symbol of the pre-resolution terminals set is registered. -/
def BaseReg (sbn : SDict Sym) (base : List Sym) : Prop :=
  ∀ t ∈ base, dcontains sbn t.name = true

lemma GoodSym_mono (sbn : SDict Sym) (ts ts' : List Sym) (x : Sym)
    (h : GoodSym sbn ts x) (hsub : ∀ y ∈ ts, y ∈ ts') : GoodSym sbn ts' x := by
  rcases h with h | ⟨h1, h2, h3⟩
  · exact Or.inl h
  · exact Or.inr ⟨h1, h2, hsub x h3⟩

lemma resolveRef_ok (sbn rtt : SDict Sym) (pSym : Sym) (base : List Sym)
    (st : ResolveSt) (ref r' : Sym) (st' : ResolveSt)
    (hnames : DictNamesOk sbn) (hinv : RInv sbn base st) (hbase : BaseReg sbn base)
    (h : resolveRef sbn rtt pSym st ref = Except.ok (r', st')) :
    RInv sbn base st' ∧ r'.name = ref.name ∧ GoodSym sbn st'.terminals r' ∧
    (∀ x ∈ st.terminals, x ∈ st'.terminals) := by
  unfold resolveRef at h
  split at h
  · rename_i s hs
    simp only [Except.ok.injEq, Prod.mk.injEq] at h
    obtain ⟨hr, hst⟩ := h
    have hname : r'.name = ref.name := by
      rw [← hr]
      exact dlookup_value_name sbn hnames ref.name s hs
    refine ⟨by rw [← hst]; exact hinv, hname, ?_, by rw [← hst]; exact fun x hx => hx⟩
    refine Or.inl ?_
    rw [hname, ← hr]
    exact hs
  · split at h
    · exact absurd h (by simp)
    · split at h
      · exact absurd h (by simp)
      · split at h
        · rename_i hs hcond hkind t ht
          simp only [Except.ok.injEq, Prod.mk.injEq] at h
          obtain ⟨hr, hst⟩ := h
          obtain ⟨hterms, hentries, hnodup⟩ := hinv
          rcases dlookup_mem st.recToTerm ref.name t ht with hmem | ⟨e, he, hek, hev⟩
          · obtain ⟨hn1, hn2, hn3⟩ := hentries (ref.name, t) hmem
            have hmem2 : t ∈ st.terminals := by
              rw [hterms]
              exact List.mem_append.mpr (Or.inr (List.mem_map.mpr ⟨(ref.name, t), hmem, rfl⟩))
            refine ⟨by rw [← hst]; exact ⟨hterms, hentries, hnodup⟩, by rw [← hr]; exact hn1,
              ?_, by rw [← hst]; exact fun x hx => hx⟩
            refine Or.inr ⟨?_, by rw [← hr]; exact hn3, by rw [← hst, ← hr]; exact hmem2⟩
            rw [← hr, hn1]
            exact hn2
          · obtain ⟨hn1, hn2, hn3⟩ := hentries e he
            have hmem2 : t ∈ st.terminals := by
              rw [hterms]
              exact List.mem_append.mpr (Or.inr (List.mem_map.mpr ⟨e, he, hev⟩))
            have htname : t.name = ref.name := by
              rw [← hev, hn1, hek]
            refine ⟨by rw [← hst]; exact ⟨hterms, hentries, hnodup⟩, by rw [← hr]; exact htname,
              ?_, by rw [← hst]; exact fun x hx => hx⟩
            refine Or.inr ⟨?_, by rw [← hr, ← hev]; exact hn3, by rw [← hst, ← hr]; exact hmem2⟩
            rw [← hr, htname, ← hek]
            exact hn2
        · have hlookS : dlookup sbn ref.name = none := by assumption
          have hct : dlookup st.recToTerm ref.name = none := by assumption
          have hcond2 : ¬ref.kind ≠ SymKind.terminal := by assumption
          have hrefkind : ref.kind = SymKind.terminal := not_not.mp hcond2
          simp only [Except.ok.injEq, Prod.mk.injEq] at h
          obtain ⟨hr, hst⟩ := h
          obtain ⟨hterms, hentries, hnodup⟩ := hinv
          have hnoclash : ∀ y ∈ st.terminals, y.name ≠ ref.name := by
            intro y hy hcon
            rw [hterms] at hy
            rcases List.mem_append.mp hy with hy2 | hy2
            · have hc1 := hbase y hy2
              rw [hcon] at hc1
              have hc2 := (dcontains_iff_lookup_isSome sbn ref.name).mp hc1
              rw [hlookS] at hc2
              simp at hc2
            · obtain ⟨e, he, hev⟩ := List.mem_map.mp hy2
              obtain ⟨hn1, _, _⟩ := hentries e he
              have hlk := dlookup_of_mem_entry st.recToTerm hnodup e he
              have hekey : e.1 = ref.name := by rw [← hn1, hev, hcon]
              rw [hekey, hct] at hlk
              simp at hlk
          have hterm' : symSetAdd st.terminals ref = st.terminals ++ [ref] :=
            symSetAdd_append st.terminals ref hnoclash
          have hctf : dcontains st.recToTerm ref.name = false :=
            dcontains_false_of_dlookup_none _ _ hct
          have hrtt' : dinsert st.recToTerm ref.name ref
              = st.recToTerm ++ [(ref.name, ref)] :=
            dinsert_of_not_contains _ _ _ hctf
          refine ⟨?_, by rw [← hr], ?_, ?_⟩
          · refine ⟨?_, ?_, ?_⟩
            · rw [← hst]
              simp only [hterm', hrtt']
              rw [hterms]
              simp
            · rw [← hst]
              simp only [hrtt']
              intro e he
              rcases List.mem_append.mp he with he2 | he2
              · exact hentries e he2
              · simp only [List.mem_singleton] at he2
                rw [he2]
                exact ⟨rfl, hlookS, hrefkind⟩
            · rw [← hst]
              simp only []
              rw [hrtt', ← dinsert_of_not_contains _ _ _ hctf]
              exact keysNodup_dinsert _ _ _ hnodup
          · refine Or.inr ⟨by rw [← hr]; exact hlookS, by rw [← hr]; exact hrefkind, ?_⟩
            rw [← hst, ← hr]
            simp only [hterm']
            exact List.mem_append.mpr (Or.inr (by simp))
          · intro x hx
            rw [← hst]
            simp only [hterm']
            exact List.mem_append.mpr (Or.inl hx)

lemma resolveRhsLoop_ok (sbn rtt : SDict Sym) (pSym : Sym) (base : List Sym)
    (rs : List Sym) (st : ResolveSt) (rs' : List Sym) (st' : ResolveSt)
    (hnames : DictNamesOk sbn) (hinv : RInv sbn base st) (hbase : BaseReg sbn base)
    (h : resolveRhsLoop sbn rtt pSym rs st = Except.ok (rs', st')) :
    RInv sbn base st' ∧ (∀ x ∈ st.terminals, x ∈ st'.terminals) ∧
    (∀ r' ∈ rs', GoodSym sbn st'.terminals r') := by
  induction rs generalizing st rs' st' with
  | nil =>
      unfold resolveRhsLoop at h
      simp only [Except.ok.injEq, Prod.mk.injEq] at h
      obtain ⟨h1, h2⟩ := h
      rw [← h1, ← h2]
      exact ⟨hinv, fun x hx => hx, by simp⟩
  | cons r rs ih =>
      unfold resolveRhsLoop at h
      split at h
      · exact absurd h (by simp)
      · rename_i r1 st1 hr
        split at h
        · exact absurd h (by simp)
        · rename_i rs1 st2 hl
          simp only [Except.ok.injEq, Prod.mk.injEq] at h
          obtain ⟨h1, h2⟩ := h
          obtain ⟨hinv1, _, hgood1, hmono1⟩ :=
            resolveRef_ok sbn rtt pSym base st r r1 st1 hnames hinv hbase hr
          obtain ⟨hinv2, hmono2, hgood2⟩ := ih st1 rs1 st2 hinv1 hl
          rw [← h1, ← h2]
          refine ⟨hinv2, fun x hx => hmono2 x (hmono1 x hx), ?_⟩
          intro r' hr'
          rcases List.mem_cons.mp hr' with hh | hh
          · rw [hh]
            exact GoodSym_mono sbn st1.terminals st2.terminals r1 hgood1 hmono2
          · exact hgood2 r' hh

lemma resolveLhs_lookup (sbn : SDict Sym) (p : Production)
    (hnames : DictNamesOk sbn) (hc : dcontains sbn p.symbol.name = true) :
    dlookup sbn (resolveLhs sbn p).name = some (resolveLhs sbn p) := by
  unfold resolveLhs
  cases hl : dlookup sbn p.symbol.name with
  | none =>
      have := (dcontains_iff_lookup_isSome sbn p.symbol.name).mp hc
      rw [hl] at this
      simp at this
  | some s =>
      have hname := dlookup_value_name sbn hnames p.symbol.name s hl
      rw [hname]
      exact hl

lemma resolveLhs_of_lookup (sbn : SDict Sym) (p : Production) (v : Sym)
    (h : dlookup sbn p.symbol.name = some v) : resolveLhs sbn p = v := by
  unfold resolveLhs
  rw [h]

lemma resolveProduction_ok (sbn rtt : SDict Sym) (base : List Sym)
    (st : ResolveSt) (p q : Production) (st' : ResolveSt)
    (hnames : DictNamesOk sbn) (hinv : RInv sbn base st) (hbase : BaseReg sbn base)
    (h : resolveProduction sbn rtt st p = Except.ok (q, st')) :
    RInv sbn base st' ∧ (∀ x ∈ st.terminals, x ∈ st'.terminals) ∧
    q.symbol = resolveLhs sbn p ∧
    (∀ r ∈ q.rhs, GoodSym sbn st'.terminals r) := by
  unfold resolveProduction at h
  split at h
  · exact absurd h (by simp)
  · rename_i rhs1 st1 hrl
    simp only [Except.ok.injEq, Prod.mk.injEq] at h
    obtain ⟨hq, hst⟩ := h
    obtain ⟨hinv2, hmono, hgood⟩ := resolveRhsLoop_ok sbn rtt (resolveLhs sbn p)
      base p.rhs st rhs1 st1 hnames hinv hbase hrl
    rw [← hst]
    refine ⟨hinv2, hmono, by rw [← hq], ?_⟩
    rw [← hq]
    exact hgood

lemma resolveLoop_ok (sbn rtt : SDict Sym) (base : List Sym)
    (ps : List Production) (st : ResolveSt) (ps' : List Production) (st' : ResolveSt)
    (hnames : DictNamesOk sbn) (hinv : RInv sbn base st) (hbase : BaseReg sbn base)
    (hregs : ∀ p ∈ ps, dcontains sbn p.symbol.name = true)
    (h : resolveLoop sbn rtt ps st = Except.ok (ps', st')) :
    RInv sbn base st' ∧ (∀ x ∈ st.terminals, x ∈ st'.terminals) ∧
    (∀ q ∈ ps', dlookup sbn q.symbol.name = some q.symbol ∧
      ∀ r ∈ q.rhs, GoodSym sbn st'.terminals r) := by
  induction ps generalizing st ps' st' with
  | nil =>
      unfold resolveLoop at h
      simp only [Except.ok.injEq, Prod.mk.injEq] at h
      obtain ⟨h1, h2⟩ := h
      rw [← h1, ← h2]
      exact ⟨hinv, fun x hx => hx, by simp⟩
  | cons p ps ih =>
      unfold resolveLoop at h
      split at h
      · exact absurd h (by simp)
      · rename_i q1 st1 hp
        split at h
        · exact absurd h (by simp)
        · rename_i qs1 st2 hl
          simp only [Except.ok.injEq, Prod.mk.injEq] at h
          obtain ⟨h1, h2⟩ := h
          obtain ⟨hinv1, hmono1, hsym1, hgood1⟩ :=
            resolveProduction_ok sbn rtt base st p q1 st1 hnames hinv hbase hp
          obtain ⟨hinv2, hmono2, hall2⟩ :=
            ih st1 qs1 st2 hinv1 (fun x hx => hregs x (by simp [hx])) hl
          rw [← h1, ← h2]
          refine ⟨hinv2, fun x hx => hmono2 x (hmono1 x hx), ?_⟩
          intro q hq
          rcases List.mem_cons.mp hq with hh | hh
          · subst hh
            constructor
            · rw [hsym1]
              exact resolveLhs_lookup sbn p hnames (hregs p (by simp))
            · intro r hr
              exact GoodSym_mono sbn st1.terminals st2.terminals r (hgood1 r hr) hmono2
          · exact hall2 q hh

/-! ## Prune and enumerate lemmas -/

lemma prune_mem (ps : List Production) (q : Production)
    (h : q ∈ pruneTerminalProductions ps) : q ∈ ps := by
  unfold pruneTerminalProductions at h
  split at h
  · exact (List.mem_filter.mp h).1
  · exact h

lemma prune_head (q0 : Production) (rest : List Production)
    (hq : q0.symbol.kind = SymKind.nonterminal) :
    ∃ rest', pruneTerminalProductions (q0 :: rest) = q0 :: rest' := by
  unfold pruneTerminalProductions
  have hpred : pruneKeep q0 = true := by simp [pruneKeep, hq]
  rw [List.filter_cons_of_pos hpred]
  split
  · exact ⟨_, rfl⟩
  · exact ⟨rest, rfl⟩

lemma enumerateLoop_length (ps : List Production) :
    ∀ (d : SDict Nat) (i : Nat), (enumerateLoop d i ps).length = ps.length := by
  induction ps with
  | nil => intro d i; rfl
  | cons q ps ih =>
      intro d i
      unfold enumerateLoop
      simp [ih]

lemma enumerateLoop_getElem (ps : List Production) :
    ∀ (d : SDict Nat) (i j : Nat) (p : Production), ps[j]? = some p →
    ∃ k, (enumerateLoop d i ps)[j]?
      = some { p with prodId := some (i + j), prodSymbolId := some k } := by
  induction ps with
  | nil => intro d i j p hp; simp at hp
  | cons q ps ih =>
      intro d i j p hp
      match j with
      | 0 =>
          simp only [List.getElem?_cons_zero, Option.some.injEq] at hp
          refine ⟨(dlookup d q.symbol.name).getD 0, ?_⟩
          unfold enumerateLoop
          simp [← hp]
      | Nat.succ j' =>
          have hp' : ps[j']? = some p := by simpa using hp
          obtain ⟨k, hk⟩ := ih (dinsert d q.symbol.name ((dlookup d q.symbol.name).getD 0 + 1))
            (i + 1) j' p hp'
          refine ⟨k, ?_⟩
          unfold enumerateLoop
          have harith : i + (j' + 1) = (i + 1) + j' := by omega
          rw [harith]
          simpa using hk

lemma enumerateLoop_mem (ps : List Production) :
    ∀ (d : SDict Nat) (i : Nat) (q : Production), q ∈ enumerateLoop d i ps →
    ∃ p ∈ ps, q.symbol = p.symbol ∧ q.rhs = p.rhs := by
  induction ps with
  | nil => intro d i q hq; simp [enumerateLoop] at hq
  | cons p ps ih =>
      intro d i q hq
      unfold enumerateLoop at hq
      rcases List.mem_cons.mp hq with hh | hh
      · exact ⟨p, by simp, by rw [hh], by rw [hh]⟩
      · obtain ⟨p2, hp2, h1, h2⟩ := ih _ _ q hh
        exact ⟨p2, by simp [hp2], h1, h2⟩

/-! ## Facts about production 0 -/

lemma mkProduction_aug_symbol (s : Sym) :
    (mkProduction AUGSYMBOL [s, STOP]).symbol = AUGSYMBOL := rfl

lemma mkProduction_aug_rhs (s : Sym) :
    (mkProduction AUGSYMBOL [s, STOP]).rhs = [s, STOP] := by
  unfold mkProduction
  have : rhsLen [s, STOP] ≠ 0 := by
    unfold rhsLen rhsEmptyCount
    have hstop : (STOP.name == "EMPTY") = false := by decide
    by_cases hs : (s.name == "EMPTY") = true
    · simp [List.filter_cons, hs, hstop]
    · have hs' : (s.name == "EMPTY") = false := by simpa using hs
      simp [List.filter_cons, hs', hstop]
  rw [if_neg this]

/-! ## Inversion of a successful construction -/

lemma construct_ok_inversion (userProds : List Production) (filePath : Option String)
    (rp : Option (SDict Recog)) (sp : StartParam) (nc : Bool) (g : Grammar)
    (h : construct userProds filePath rp sp nc = Except.ok g) :
    ∃ (fp : String) (st0 : CollectSt) (startSym : Sym) (st1 : CollectSt)
      (prods1 : List Production) (rst : ResolveSt) (kw : Option (PRegex × Bool)),
      realpathModel filePath = Except.ok fp ∧
      collectLoop { sbn := [], rtt := [], nextSid := nextSidBase userProds } userProds
        = Except.ok st0 ∧
      determineStart userProds sp = Except.ok (some startSym) ∧
      collectLoop { sbn := [], rtt := [], nextSid := st0.nextSid }
        (mkProduction AUGSYMBOL [startSym, STOP] :: userProds) = Except.ok st1 ∧
      resolveLoop (sbn1Of st1) st1.rtt (mkProduction AUGSYMBOL [startSym, STOP] :: userProds)
        { terminals := terminals1Of st1, recToTerm := [] } = Except.ok (prods1, rst) ∧
      kwKey rst.terminals = Except.ok kw ∧
      g = { productions := (enumerateLoop [] 0 (pruneTerminalProductions prods1)).map
              (fun p => { p with symbol := kwApply kw p.symbol,
                                 rhs := p.rhs.map (kwApply kw) }),
            terminals := rst.terminals.map (kwApply kw),
            nonterminals := (nonterminals0Of st1).map (kwApply kw),
            symbols_by_name := (sbn1Of st1).map (fun e => (e.1, kwApply kw e.2)),
            start_symbol := kwApply kw startSym,
            filePath := fp } := by
  unfold construct at h
  split at h
  · exact absurd h (by simp)
  · rename_i fp hfp
    split at h
    · exact absurd h (by simp)
    · rename_i st0 hst0
      split at h
      · exact absurd h (by simp)
      · rename_i startOpt hso
        split at h
        · exact absurd h (by simp)
        · rename_i startSym
          split at h
          · exact absurd h (by simp)
          · rename_i st1 hst1
            split at h
            · exact absurd h (by simp)
            · rename_i u hchk
              split at h
              · exact absurd h (by simp)
              · rename_i pr prods1 rst hres
                split at h
                · exact absurd h (by simp)
                · rename_i kw hkw
                  simp only [Except.ok.injEq] at h
                  exact ⟨fp, st0, startSym, st1, prods1, rst, kw,
                    hfp, hst0, hso, hst1, hres, hkw, h.symm⟩

/-! ## Post-collect facts -/

lemma symSetAdd_mem_sub (s : List Sym) (y x : Sym) (h : x ∈ symSetAdd s y) :
    x ∈ s ∨ x = y := by
  unfold symSetAdd at h
  split at h
  · exact Or.inl h
  · rcases List.mem_append.mp h with h2 | h2
    · exact Or.inl h2
    · simp only [List.mem_singleton] at h2
      exact Or.inr h2

lemma symSetUpdate_mem_sub (xs : List Sym) :
    ∀ (s : List Sym) (x : Sym), x ∈ symSetUpdate s xs → x ∈ s ∨ x ∈ xs := by
  induction xs with
  | nil => intro s x h; exact Or.inl h
  | cons y xs ih =>
      intro s x h
      rcases ih (symSetAdd s y) x h with h2 | h2
      · rcases symSetAdd_mem_sub s y x h2 with h3 | h3
        · exact Or.inl h3
        · exact Or.inr (by simp [h3])
      · exact Or.inr (by simp [h2])

lemma symSetUpdate3_append (s : List Sym)
    (h : ∀ t ∈ s, t.name ≠ "EMPTY" ∧ t.name ≠ "EOF" ∧ t.name ≠ "STOP") :
    symSetUpdate s [EMPTY, EOF, STOP] = s ++ [EMPTY, EOF, STOP] := by
  have h1 : symSetAdd s EMPTY = s ++ [EMPTY] :=
    symSetAdd_append s EMPTY (fun y hy => (h y hy).1)
  have h2 : symSetAdd (s ++ [EMPTY]) EOF = s ++ [EMPTY] ++ [EOF] := by
    refine symSetAdd_append _ EOF ?_
    intro y hy
    rcases List.mem_append.mp hy with hy2 | hy2
    · exact (h y hy2).2.1
    · simp only [List.mem_singleton] at hy2
      rw [hy2]
      decide
  have h3 : symSetAdd (s ++ [EMPTY] ++ [EOF]) STOP
      = s ++ [EMPTY] ++ [EOF] ++ [STOP] := by
    refine symSetAdd_append _ STOP ?_
    intro y hy
    rcases List.mem_append.mp hy with hy2 | hy2
    · rcases List.mem_append.mp hy2 with hy3 | hy3
      · exact (h y hy3).2.2
      · simp only [List.mem_singleton] at hy3
        rw [hy3]
        decide
    · simp only [List.mem_singleton] at hy2
      rw [hy2]
      decide
  show symSetAdd (symSetAdd (symSetAdd s EMPTY) EOF) STOP = _
  rw [h1, h2, h3]
  simp

lemma augName_ne_EMPTY : augName ≠ "EMPTY" := by decide
lemma augName_ne_EOF : augName ≠ "EOF" := by decide
lemma augName_ne_STOP : augName ≠ "STOP" := by decide

lemma dlookup_sbn1Of_untouched (st1 : CollectSt) (k : String)
    (h1 : k ≠ "EMPTY") (h2 : k ≠ "EOF") (h3 : k ≠ "STOP") :
    dlookup (sbn1Of st1) k = dlookup st1.sbn k := by
  unfold sbn1Of
  rw [dlookup_dinsert_ne _ _ _ _ h3, dlookup_dinsert_ne _ _ _ _ h2,
    dlookup_dinsert_ne _ _ _ _ h1]

lemma dlookup_sbn1Of_STOP (st1 : CollectSt) :
    dlookup (sbn1Of st1) "STOP" = some STOP := by
  unfold sbn1Of
  rw [dlookup_dinsert_self]

lemma dlookup_sbn1Of_EOF (st1 : CollectSt) :
    dlookup (sbn1Of st1) "EOF" = some EOF := by
  unfold sbn1Of
  rw [dlookup_dinsert_ne _ _ _ _ (by decide : "EOF" ≠ "STOP"), dlookup_dinsert_self]

lemma dlookup_sbn1Of_EMPTY (st1 : CollectSt) :
    dlookup (sbn1Of st1) "EMPTY" = some EMPTY := by
  unfold sbn1Of
  rw [dlookup_dinsert_ne _ _ _ _ (by decide : "EMPTY" ≠ "STOP"),
    dlookup_dinsert_ne _ _ _ _ (by decide : "EMPTY" ≠ "EOF"), dlookup_dinsert_self]

lemma dcontains_sbn1Of_mono (st1 : CollectSt) (k : String)
    (h : dcontains st1.sbn k = true) : dcontains (sbn1Of st1) k = true := by
  unfold sbn1Of
  exact (dcontains_dinsert _ _ _ _).mpr (Or.inr
    ((dcontains_dinsert _ _ _ _).mpr (Or.inr
      ((dcontains_dinsert _ _ _ _).mpr (Or.inr h)))))

lemma namesOk_sbn1Of (st1 : CollectSt) (h : DictNamesOk st1.sbn) :
    DictNamesOk (sbn1Of st1) := by
  unfold sbn1Of
  exact namesOk_dinsert _ _ _ (namesOk_dinsert _ _ _
    (namesOk_dinsert _ _ _ h rfl) rfl) rfl

lemma keysNodup_sbn1Of (st1 : CollectSt) (h : DictKeysNodup st1.sbn) :
    DictKeysNodup (sbn1Of st1) := by
  unfold sbn1Of
  exact keysNodup_dinsert _ _ _ (keysNodup_dinsert _ _ _
    (keysNodup_dinsert _ _ _ h))

lemma collectStep_aug (st : CollectSt) (s : Sym) :
    collectStep st (mkProduction AUGSYMBOL [s, STOP])
      = Except.ok { st with sbn := dinsert st.sbn augName AUGSYMBOL } := rfl

lemma collectLoop_cons_unfold (st st1 : CollectSt) (p : Production)
    (ps : List Production) (h : collectStep st p = Except.ok st1) :
    collectLoop st (p :: ps) = collectLoop st1 ps := by
  have hu : collectLoop st (p :: ps)
      = match collectStep st p with
        | Except.error e => Except.error e
        | Except.ok st' => collectLoop st' ps := rfl
  rw [hu, h]

/-- Facts established by the second collect pass (over production 0 and the
user productions) starting from the empty dictionary. -/
lemma collect2_facts (userProds : List Production) (startSym : Sym) (n : Nat)
    (st1 : CollectSt)
    (hst1 : collectLoop { sbn := [], rtt := [], nextSid := n }
      (mkProduction AUGSYMBOL [startSym, STOP] :: userProds) = Except.ok st1) :
    DictNamesOk st1.sbn ∧ DictKeysNodup st1.sbn ∧
    (∀ p ∈ (mkProduction AUGSYMBOL [startSym, STOP] :: userProds),
       dcontains st1.sbn p.symbol.name = true) ∧
    (∀ k, dcontains st1.sbn k = true →
       ∃ p ∈ (mkProduction AUGSYMBOL [startSym, STOP] :: userProds),
         p.symbol.name = k) := by
  have hnames0 : DictNamesOk ([] : SDict Sym) := fun e he => absurd he (List.not_mem_nil e)
  have hnodup0 : DictKeysNodup ([] : SDict Sym) := by
    unfold DictKeysNodup
    simp
  obtain ⟨hnames, hnodup⟩ := collectLoop_names_nodup _ _ _ hst1 hnames0 hnodup0
  refine ⟨hnames, hnodup, collectLoop_lhs_registered _ _ _ hst1 hnames0, ?_⟩
  intro k hk
  rcases collectLoop_keys_from_lhs _ _ _ hst1 hnames0 k hk with h1 | h1
  · exact absurd h1 (by simp [dcontains])
  · exact h1

/-- The entry registered under the augmented-start name stays a NonTerminal
throughout the second collect pass (production 0 installs it first). -/
lemma collect2_aug (userProds : List Production) (startSym : Sym) (n : Nat)
    (st1 : CollectSt)
    (hNoRef : ∀ p ∈ userProds, p.symbol.kind ≠ SymKind.reference)
    (hst1 : collectLoop { sbn := [], rtt := [], nextSid := n }
      (mkProduction AUGSYMBOL [startSym, STOP] :: userProds) = Except.ok st1) :
    ∃ v, dlookup (sbn1Of st1) augName = some v ∧ v.kind = SymKind.nonterminal := by
  rw [collectLoop_cons_unfold _ _ _ _ (collectStep_aug _ startSym)] at hst1
  have hnames0 : DictNamesOk (dinsert ([] : SDict Sym) augName AUGSYMBOL) :=
    namesOk_dinsert [] augName AUGSYMBOL (fun e he => absurd he (List.not_mem_nil e)) rfl
  have h0 : ∃ v, dlookup (dinsert ([] : SDict Sym) augName AUGSYMBOL) augName = some v
      ∧ v.kind = SymKind.nonterminal :=
    ⟨AUGSYMBOL, dlookup_dinsert_self _ _ _, rfl⟩
  obtain ⟨v, hv, hkind⟩ := collectLoop_aug_nt userProds _ st1 hst1 hnames0 hNoRef h0
  refine ⟨v, ?_, hkind⟩
  rw [dlookup_sbn1Of_untouched st1 augName augName_ne_EMPTY augName_ne_EOF augName_ne_STOP]
  exact hv

/-- The pre-resolution terminals set is registered in the completed name
index. -/
lemma baseReg_terminals1 (st1 : CollectSt) (hnames : DictNamesOk st1.sbn)
    (hnodup : DictKeysNodup st1.sbn) :
    BaseReg (sbn1Of st1) (terminals1Of st1) := by
  intro t ht
  rcases symSetUpdate_mem_sub [EMPTY, EOF, STOP] (terminals0Of st1) t ht with h1 | h1
  · have hv : t ∈ dvalues st1.sbn := (List.mem_filter.mp h1).1
    have hl := dvalue_lookup_self st1.sbn hnames hnodup t hv
    have hc : dcontains st1.sbn t.name = true :=
      (dcontains_iff_lookup_isSome _ _).mpr (by simp [hl])
    exact dcontains_sbn1Of_mono st1 t.name hc
  · simp only [List.mem_cons, List.not_mem_nil, or_false] at h1
    rcases h1 with h1 | h1 | h1 <;> subst h1 <;>
      refine (dcontains_iff_lookup_isSome _ _).mpr ?_
    · rw [show EMPTY.name = "EMPTY" from rfl, dlookup_sbn1Of_EMPTY]
      rfl
    · rw [show EOF.name = "EOF" from rfl, dlookup_sbn1Of_EOF]
      rfl
    · rw [show STOP.name = "STOP" from rfl, dlookup_sbn1Of_STOP]
      rfl

/-- The initial resolve state satisfies the resolve invariant. -/
lemma rinv_init (sbn : SDict Sym) (base : List Sym) :
    RInv sbn base { terminals := base, recToTerm := [] } := by
  refine ⟨by simp, ?_, ?_⟩
  · intro e he
    exact absurd he (List.not_mem_nil e)
  · unfold DictKeysNodup
    simp

/-- Resolution of a two-element RHS yields two elements whose names match
the references, each a good symbol of the final state. -/
lemma resolveRhsLoop_pair (sbn rtt : SDict Sym) (pSym : Sym) (base : List Sym)
    (a b : Sym) (st : ResolveSt) (rhs1 : List Sym) (st' : ResolveSt)
    (hnames : DictNamesOk sbn) (hinv : RInv sbn base st) (hbase : BaseReg sbn base)
    (h : resolveRhsLoop sbn rtt pSym [a, b] st = Except.ok (rhs1, st')) :
    ∃ ra rb, rhs1 = [ra, rb] ∧ ra.name = a.name ∧ rb.name = b.name ∧
      GoodSym sbn st'.terminals ra ∧ GoodSym sbn st'.terminals rb := by
  unfold resolveRhsLoop at h
  split at h
  · exact absurd h (by simp)
  · rename_i ra st1 hra
    split at h
    · exact absurd h (by simp)
    · rename_i rs2 st2 hrs2
      simp only [Except.ok.injEq, Prod.mk.injEq] at h
      obtain ⟨h1, h2⟩ := h
      unfold resolveRhsLoop at hrs2
      split at hrs2
      · exact absurd hrs2 (by simp)
      · rename_i rb st1b hrb
        split at hrs2
        · exact absurd hrs2 (by simp)
        · rename_i rs3 st3 hrs3
          simp only [Except.ok.injEq, Prod.mk.injEq] at hrs2
          obtain ⟨h3, h4⟩ := hrs2
          unfold resolveRhsLoop at hrs3
          simp only [Except.ok.injEq, Prod.mk.injEq] at hrs3
          obtain ⟨h5, h6⟩ := hrs3
          obtain ⟨hinv1, hname_a, hgood_a, hmono_a⟩ :=
            resolveRef_ok sbn rtt pSym base st a ra st1 hnames hinv hbase hra
          obtain ⟨hinv2, hname_b, hgood_b, hmono_b⟩ :=
            resolveRef_ok sbn rtt pSym base st1 b rb st1b hnames hinv1 hbase hrb
          have hst' : st1b = st' := by rw [h6, h4, h2]
          refine ⟨ra, rb, ?_, hname_a, hname_b, ?_, ?_⟩
          · rw [← h1, ← h3, ← h5]
          · rw [← hst']
            exact GoodSym_mono sbn st1.terminals st1b.terminals ra hgood_a hmono_b
          · rw [← hst']
            exact hgood_b

/-- Resolution of production 0: the LHS becomes the registered holder of
the augmented-start name, and the RHS becomes a symbol named after the
start symbol followed by the STOP singleton. -/
lemma resolveProduction_aug (sbn rtt : SDict Sym) (base : List Sym)
    (st : ResolveSt) (s : Sym) (q : Production) (st' : ResolveSt)
    (hnames : DictNamesOk sbn) (hinv : RInv sbn base st) (hbase : BaseReg sbn base)
    (hstop : dlookup sbn "STOP" = some STOP)
    (h : resolveProduction sbn rtt st (mkProduction AUGSYMBOL [s, STOP])
      = Except.ok (q, st')) :
    q.symbol = resolveLhs sbn (mkProduction AUGSYMBOL [s, STOP]) ∧
    (∃ r1, q.rhs = [r1, STOP] ∧ r1.name = s.name) ∧
    q.prodId = none := by
  unfold resolveProduction at h
  rw [mkProduction_aug_rhs] at h
  split at h
  · exact absurd h (by simp)
  · rename_i rhs1 st1 hrl
    simp only [Except.ok.injEq, Prod.mk.injEq] at h
    obtain ⟨hq, hst⟩ := h
    obtain ⟨ra, rb, hsplit, hna, hnb, _, hgb⟩ :=
      resolveRhsLoop_pair sbn rtt _ base s STOP st rhs1 st1 hnames hinv hbase hrl
    have hrb_stop : rb = STOP := by
      rcases hgb with hg | ⟨hg, _, _⟩
      · rw [hnb] at hg
        rw [show STOP.name = "STOP" from rfl, hstop] at hg
        simpa using hg.symm
      · rw [hnb, show STOP.name = "STOP" from rfl, hstop] at hg
        exact absurd hg (by simp)
    refine ⟨by rw [← hq], ⟨ra, ?_, hna⟩, by rw [← hq]; rfl⟩
    rw [← hq]
    simp only []
    rw [hsplit, hrb_stop]

lemma getLast?_mem_list {α : Type} (l : List α) (a : α) (h : l.getLast? = some a) :
    a ∈ l := by
  induction l with
  | nil => simp at h
  | cons x l ih =>
      cases l with
      | nil =>
          simp only [List.getLast?_singleton, Option.some.injEq] at h
          simp [h]
      | cons y l2 =>
          rw [List.getLast?_cons_cons] at h
          exact List.mem_cons_of_mem _ (ih h)

lemma resolveLoop_cons_inversion (sbn rtt : SDict Sym) (p : Production)
    (ps : List Production) (st : ResolveSt) (ps' : List Production) (st' : ResolveSt)
    (h : resolveLoop sbn rtt (p :: ps) st = Except.ok (ps', st')) :
    ∃ q st1 qs, resolveProduction sbn rtt st p = Except.ok (q, st1) ∧
      resolveLoop sbn rtt ps st1 = Except.ok (qs, st') ∧ ps' = q :: qs := by
  unfold resolveLoop at h
  split at h
  · exact absurd h (by simp)
  · rename_i q st1 hp
    split at h
    · exact absurd h (by simp)
    · rename_i qs st2 hl
      simp only [Except.ok.injEq, Prod.mk.injEq] at h
      obtain ⟨h1, h2⟩ := h
      refine ⟨q, st1, qs, hp, ?_, h1.symm⟩
      rw [← h2]
      exact hl

/-- C2. For every successfully constructed Grammar (with no bare Reference
used as an LHS, a configuration no grammar source can produce), the first
element of the production list carries prod_id 0 and is the synthetic
augmented start production: its LHS is the nonterminal registered under the
name S-apostrophe, its RHS is a symbol bearing the start symbol's name
followed by the STOP singleton, and every production's prod_id equals its
list position, hence prod_ids are strictly increasing in list order. -/
theorem c2_augmented_start (ps : List Production) (fp : Option String)
    (rp : Option (SDict Recog)) (sp : StartParam) (nc : Bool) (g : Grammar)
    (hNoRef : ∀ p ∈ ps, p.symbol.kind ≠ SymKind.reference)
    (h : construct ps fp rp sp nc = Except.ok g) :
    ∃ p0 rest, g.productions = p0 :: rest ∧ p0.prodId = some 0 ∧
      p0.symbol.name = augName ∧ p0.symbol.kind = SymKind.nonterminal ∧
      (∃ s1, p0.rhs = [s1, STOP] ∧ s1.name = g.start_symbol.name) ∧
      (∀ (i : Nat) (p : Production), g.productions[i]? = some p → p.prodId = some i) := by
  obtain ⟨fp', st0, startSym, st1, prods1, rst, kw, hfp, hst0, hso, hst1, hres, hkw, hg⟩ :=
    construct_ok_inversion ps fp rp sp nc g h
  obtain ⟨hnames, hnodup, hregs, hkeys⟩ := collect2_facts ps startSym _ st1 hst1
  have hnames1 := namesOk_sbn1Of st1 hnames
  have hbase := baseReg_terminals1 st1 hnames hnodup
  have hinv0 := rinv_init (sbn1Of st1) (terminals1Of st1)
  obtain ⟨v, hv, hvkind⟩ := collect2_aug ps startSym _ st1 hNoRef hst1
  obtain ⟨q0, stq, qs1, hq0, hrestloop, hps1⟩ :=
    resolveLoop_cons_inversion _ _ _ _ _ _ _ hres
  obtain ⟨hq0sym, ⟨r1, hq0rhs, hr1name⟩, _⟩ :=
    resolveProduction_aug (sbn1Of st1) st1.rtt (terminals1Of st1) _ startSym q0 stq
      hnames1 hinv0 hbase (dlookup_sbn1Of_STOP st1) hq0
  have hlhs : resolveLhs (sbn1Of st1) (mkProduction AUGSYMBOL [startSym, STOP]) = v := by
    apply resolveLhs_of_lookup
    show dlookup (sbn1Of st1) (mkProduction AUGSYMBOL [startSym, STOP]).symbol.name = some v
    rw [mkProduction_aug_symbol]
    exact hv
  have hq0v : q0.symbol = v := by rw [hq0sym, hlhs]
  have hvname : v.name = augName := dlookup_value_name _ hnames1 _ v hv
  obtain ⟨rest2, hprune⟩ := prune_head q0 qs1 (by rw [hq0v]; exact hvkind)
  have hpruneEq : pruneTerminalProductions prods1 = q0 :: rest2 := by
    rw [hps1]
    exact hprune
  obtain ⟨k0, h30⟩ := enumerateLoop_getElem (q0 :: rest2) [] 0 0 q0 (by simp)
  cases h3eq : enumerateLoop ([] : SDict Nat) 0 (q0 :: rest2) with
  | nil => rw [h3eq] at h30; simp at h30
  | cons x tail =>
      rw [h3eq] at h30
      simp only [List.getElem?_cons_zero, Option.some.injEq] at h30
      refine ⟨{ x with symbol := kwApply kw x.symbol, rhs := x.rhs.map (kwApply kw) },
        tail.map (fun p => { p with symbol := kwApply kw p.symbol,
                                    rhs := p.rhs.map (kwApply kw) }), ?_, ?_, ?_, ?_, ?_, ?_⟩
      · rw [hg]
        simp only []
        rw [hpruneEq, h3eq]
        rfl
      · show (kwApply kw x.symbol, x).2.prodId = some 0
        simp only []
        rw [h30]
      · show (kwApply kw x.symbol).name = augName
        rw [kwApply_name, h30]
        show q0.symbol.name = augName
        rw [hq0v, hvname]
      · show (kwApply kw x.symbol).kind = SymKind.nonterminal
        rw [kwApply_kind, h30]
        show q0.symbol.kind = SymKind.nonterminal
        rw [hq0v]
        exact hvkind
      · refine ⟨kwApply kw r1, ?_, ?_⟩
        · show x.rhs.map (kwApply kw) = [kwApply kw r1, STOP]
          rw [h30]
          show q0.rhs.map (kwApply kw) = [kwApply kw r1, STOP]
          rw [hq0rhs]
          simp [kwApply_STOP]
        · rw [kwApply_name, hr1name, hg]
          simp only []
          rw [kwApply_name]
      · intro i p hp
        rw [hg] at hp
        simp only [] at hp
        rw [hpruneEq] at hp
        rw [List.getElem?_map] at hp
        rcases hx3 : (enumerateLoop ([] : SDict Nat) 0 (q0 :: rest2))[i]? with _ | x3
        · rw [hx3] at hp
          simp at hp
        · rw [hx3] at hp
          simp only [Option.map_some', Option.some.injEq] at hp
          have hlt : i < (enumerateLoop ([] : SDict Nat) 0 (q0 :: rest2)).length := by
            by_contra hge
            rw [List.getElem?_eq_none (by omega)] at hx3
            exact absurd hx3 (by simp)
          rw [enumerateLoop_length] at hlt
          have hsome : (q0 :: rest2)[i]? = some (q0 :: rest2)[i] :=
            List.getElem?_eq_getElem hlt
          obtain ⟨k, hk⟩ := enumerateLoop_getElem (q0 :: rest2) [] 0 i _ hsome
          rw [hx3] at hk
          simp only [Option.some.injEq] at hk
          rw [← hp]
          show x3.prodId = some i
          rw [hk]
          simp

/-- C2 witness: at the concrete one-production grammar S to a, the first
production carries prod_id 0, bears the augmented-start name, and its RHS
names the start symbol followed by STOP, with positional prod_ids. -/
theorem c2_augmented_start_witness :
    (∀ p ∈ psW, p.symbol.kind ≠ SymKind.reference) ∧
    ∃ p0 rest, gW.productions = p0 :: rest ∧ p0.prodId = some 0 ∧
      p0.symbol.name = augName ∧ p0.symbol.kind = SymKind.nonterminal ∧
      (∃ s1, p0.rhs = [s1, STOP] ∧ s1.name = gW.start_symbol.name) ∧
      (∀ (i : Nat) (p : Production), gW.productions[i]? = some p → p.prodId = some i) :=
  ⟨by decide,
   c2_augmented_start psW (some "g") none StartParam.noStart true gW
     (by decide) (by decide)⟩

/-- C8. Start-symbol determination: when a non-empty start-symbol name is
given, any successfully constructed grammar has a start symbol bearing that
name and sharing the identity of the LHS of a user production with that
name; when no user production bears the name, construction fails with an
error (the loud failure is an AttributeError, not a silent missing start
symbol); when no explicit start symbol is given, the start symbol is the LHS
of the first user-supplied production. -/
theorem c8_start_symbol (ps : List Production) (fp : Option String)
    (rp : Option (SDict Recog)) (nc : Bool) (s : String) (hs : s ≠ "") :
    (∀ g : Grammar, construct ps fp rp (StartParam.byName s) nc = Except.ok g →
       g.start_symbol.name = s ∧
       ∃ p ∈ ps, p.symbol.name = s ∧ g.start_symbol.sid = p.symbol.sid) ∧
    ((∀ p ∈ ps, p.symbol.name ≠ s) →
       ∃ e, construct ps fp rp (StartParam.byName s) nc = Except.error e) ∧
    (∀ g : Grammar, construct ps fp rp StartParam.noStart nc = Except.ok g →
       ∃ p0 rest, ps = p0 :: rest ∧ g.start_symbol.name = p0.symbol.name ∧
         g.start_symbol.sid = p0.symbol.sid) := by
  refine ⟨?_, ?_, ?_⟩
  · intro g h
    obtain ⟨fp', st0, startSym, st1, prods1, rst, kw, hfp, hst0, hso, hst1, hres, hkw, hg⟩ :=
      construct_ok_inversion ps fp rp (StartParam.byName s) nc g h
    simp only [determineStart] at hso
    rw [if_neg hs] at hso
    simp only [Except.ok.injEq] at hso
    cases hlast : (ps.filter (fun p => p.symbol.name == s)).getLast? with
    | none => rw [hlast] at hso; simp at hso
    | some pl =>
        rw [hlast] at hso
        simp only [Option.map_some', Option.some.injEq] at hso
        have hmem := getLast?_mem_list _ _ hlast
        have hmem2 := List.mem_filter.mp hmem
        have hname : pl.symbol.name = s := by
          have := hmem2.2
          simpa using this
        refine ⟨?_, pl, hmem2.1, hname, ?_⟩
        · rw [hg]
          simp only []
          rw [kwApply_name, ← hso]
          exact hname
        · rw [hg]
          simp only []
          rw [kwApply_sid, ← hso]
  · intro hnone
    have hfilt : ps.filter (fun p => p.symbol.name == s) = [] := by
      rw [List.filter_eq_nil_iff]
      intro p hp
      simp [hnone p hp]
    have hds : determineStart ps (StartParam.byName s) = Except.ok none := by
      simp only [determineStart]
      rw [if_neg hs, hfilt]
      rfl
    cases hr : realpathModel fp with
    | error e => exact ⟨e, by simp only [construct, hr]⟩
    | ok fpv =>
        cases hc : collectLoop { sbn := [], rtt := [], nextSid := nextSidBase ps } ps with
        | error e => exact ⟨e, by simp only [construct, hr, hc]⟩
        | ok st0 =>
            exact ⟨PyError.attributeError "start_symbol",
              by simp only [construct, hr, hc, hds]⟩
  · intro g h
    obtain ⟨fp', st0, startSym, st1, prods1, rst, kw, hfp, hst0, hso, hst1, hres, hkw, hg⟩ :=
      construct_ok_inversion ps fp rp StartParam.noStart nc g h
    simp only [determineStart, defaultStart] at hso
    cases hps : ps with
    | nil => rw [hps] at hso; simp at hso
    | cons p0 rest =>
        rw [hps] at hso
        simp only [Except.ok.injEq, Option.some.injEq] at hso
        refine ⟨p0, rest, rfl, ?_, ?_⟩
        · rw [hg]
          simp only []
          rw [kwApply_name, hso]
        · rw [hg]
          simp only []
          rw [kwApply_sid, hso]

/-- C8 witness: at the concrete one-production grammar S to a with explicit
start-symbol name S, construction succeeds and the resulting start symbol
bears the name S. -/
theorem c8_start_symbol_witness :
    (forceOk (construct psW (some "gpg") none (StartParam.byName "S") true)).start_symbol.name
      = "S" :=
  ((c8_start_symbol psW (some "gpg") none true "S" (by decide)).1
    (forceOk (construct psW (some "gpg") none (StartParam.byName "S") true)) (by rfl)).1

/-- A registered symbol-table value of the second collect pass keeps mapping
to itself after the EMPTY, EOF and STOP injections, because every key of the
pass is the augmented-start name or a user LHS name and none of those is one
of the three injected names. -/
lemma reg_value_lookup_sbn1 (ps : List Production) (startSym : Sym) (n : Nat)
    (st1 : CollectSt)
    (hst1 : collectLoop { sbn := [], rtt := [], nextSid := n }
      (mkProduction AUGSYMBOL [startSym, STOP] :: ps) = Except.ok st1)
    (hRes : ∀ p ∈ ps, p.symbol.name ≠ "EMPTY" ∧ p.symbol.name ≠ "EOF" ∧
      p.symbol.name ≠ "STOP")
    (v : Sym) (hv : v ∈ dvalues st1.sbn) :
    dlookup (sbn1Of st1) v.name = some v := by
  obtain ⟨hnames, hnodup, _, hkeys⟩ := collect2_facts ps startSym n st1 hst1
  have hl := dvalue_lookup_self st1.sbn hnames hnodup v hv
  have hc : dcontains st1.sbn v.name = true :=
    (dcontains_iff_lookup_isSome _ _).mpr (by simp [hl])
  obtain ⟨p, hp, hpn⟩ := hkeys v.name hc
  have hne : v.name ≠ "EMPTY" ∧ v.name ≠ "EOF" ∧ v.name ≠ "STOP" := by
    rcases List.mem_cons.mp hp with hp1 | hp1
    · rw [← hpn, hp1, mkProduction_aug_symbol]
      exact ⟨augName_ne_EMPTY, augName_ne_EOF, augName_ne_STOP⟩
    · rw [← hpn]
      exact hRes p hp1
  rw [dlookup_sbn1Of_untouched st1 v.name hne.1 hne.2.1 hne.2.2]
  exact hl

/-- C1 counterexample: constructing the one-production grammar S to a (with
recognizer checking suppressed, the only way construction completes) yields
a production RHS terminal that is a member of the terminals set yet has no
entry at all under its name in symbols_by_name: RHS terminals resolved
through the recognizer cache are never registered in the name index, so not
every reachable symbol instance is the one registered under its name. -/
theorem c1_unique_symbol_counterexample :
    construct psW (some "g") none StartParam.noStart true = Except.ok gW ∧
    ∃ p ∈ gW.productions, ∃ r ∈ p.rhs, r ∈ gW.terminals ∧
      dlookup gW.symbols_by_name r.name = none := by decide

/-- C1 amended. After a successful construction (over user productions whose
LHS names avoid the reserved EMPTY, EOF and STOP), every production LHS,
every nonterminal and every name-index value is exactly the instance
registered under its name; every production RHS element and every member of
the terminals set is either the registered instance or an unregistered
cache Terminal (absent from the name index); and no two distinct reachable
instances share a name. The spec's stronger claim that every reachable
instance is registered fails for the cache terminals. -/
theorem c1_unique_symbol_amended (ps : List Production) (fp : Option String)
    (rp : Option (SDict Recog)) (sp : StartParam) (nc : Bool) (g : Grammar)
    (hRes : ∀ p ∈ ps, p.symbol.name ≠ "EMPTY" ∧ p.symbol.name ≠ "EOF" ∧
      p.symbol.name ≠ "STOP")
    (h : construct ps fp rp sp nc = Except.ok g) :
    (∀ p ∈ g.productions, dlookup g.symbols_by_name p.symbol.name = some p.symbol) ∧
    (∀ p ∈ g.productions, ∀ r ∈ p.rhs,
       dlookup g.symbols_by_name r.name = some r ∨
       (dlookup g.symbols_by_name r.name = none ∧ r.kind = SymKind.terminal ∧
         r ∈ g.terminals)) ∧
    (∀ x ∈ g.nonterminals, dlookup g.symbols_by_name x.name = some x) ∧
    (∀ x ∈ g.terminals, dlookup g.symbols_by_name x.name = some x ∨
       (dlookup g.symbols_by_name x.name = none ∧ x.kind = SymKind.terminal)) ∧
    (∀ x ∈ surface g, ∀ y ∈ surface g, x.name = y.name → x = y) := by
  obtain ⟨fp', st0, startSym, st1, prods1, rst, kw, hfp, hst0, hso, hst1, hres, hkw, hg⟩ :=
    construct_ok_inversion ps fp rp sp nc g h
  obtain ⟨hnames, hnodup, hregs, hkeys⟩ := collect2_facts ps startSym _ st1 hst1
  have hnames1 := namesOk_sbn1Of st1 hnames
  have hnodup1 := keysNodup_sbn1Of st1 hnodup
  have hbase := baseReg_terminals1 st1 hnames hnodup
  have hregs1 : ∀ p ∈ (mkProduction AUGSYMBOL [startSym, STOP] :: ps),
      dcontains (sbn1Of st1) p.symbol.name = true :=
    fun p hp => dcontains_sbn1Of_mono st1 p.symbol.name (hregs p hp)
  obtain ⟨hinvF, hsub, hprod⟩ := resolveLoop_ok (sbn1Of st1) st1.rtt (terminals1Of st1)
    _ _ prods1 rst hnames1 (rinv_init _ _) hbase hregs1 hres
  obtain ⟨hTermsEq, hCacheProps, hCacheNodup⟩ := hinvF
  have hregv := fun v hv => reg_value_lookup_sbn1 ps startSym st0.nextSid st1 hst1 hRes v hv
  have hterm : ∀ t ∈ rst.terminals, dlookup (sbn1Of st1) t.name = some t ∨
      (dlookup (sbn1Of st1) t.name = none ∧ t.kind = SymKind.terminal ∧
        dlookup rst.recToTerm t.name = some t) := by
    intro t ht
    rw [hTermsEq] at ht
    rcases List.mem_append.mp ht with h1 | h1
    · rcases symSetUpdate_mem_sub [EMPTY, EOF, STOP] (terminals0Of st1) t h1 with h2 | h2
      · exact Or.inl (hregv t (List.mem_filter.mp h2).1)
      · simp only [List.mem_cons, List.not_mem_nil, or_false] at h2
        rcases h2 with h2 | h2 | h2 <;> subst h2
        · exact Or.inl (by rw [show EMPTY.name = "EMPTY" from rfl, dlookup_sbn1Of_EMPTY])
        · exact Or.inl (by rw [show EOF.name = "EOF" from rfl, dlookup_sbn1Of_EOF])
        · exact Or.inl (by rw [show STOP.name = "STOP" from rfl, dlookup_sbn1Of_STOP])
    · obtain ⟨e, he, hev⟩ := List.mem_map.mp h1
      have hev2 : e.2 = t := hev
      obtain ⟨hen, hln, hek⟩ := hCacheProps e he
      have hcl : dlookup rst.recToTerm e.1 = some e.2 :=
        dlookup_of_mem_entry rst.recToTerm hCacheNodup e he
      refine Or.inr ⟨?_, by rw [← hev2]; exact hek, ?_⟩
      · rw [← hev2, hen]
        exact hln
      · rw [← hev2, hen]
        exact hcl
  have hclass : ∀ z : Sym, (z ∈ rst.terminals ∨ z ∈ nonterminals0Of st1 ∨
      z ∈ dvalues (sbn1Of st1)) →
      dlookup (sbn1Of st1) z.name = some z ∨
      (dlookup (sbn1Of st1) z.name = none ∧ dlookup rst.recToTerm z.name = some z) := by
    intro z hz
    rcases hz with hz | hz | hz
    · rcases hterm z hz with h1 | ⟨h1, _, h3⟩
      · exact Or.inl h1
      · exact Or.inr ⟨h1, h3⟩
    · exact Or.inl (hregv z (List.mem_filter.mp hz).1)
    · exact Or.inl (dvalue_lookup_self _ hnames1 hnodup1 z hz)
  have hinj : ∀ z w : Sym,
      (dlookup (sbn1Of st1) z.name = some z ∨
        (dlookup (sbn1Of st1) z.name = none ∧ dlookup rst.recToTerm z.name = some z)) →
      (dlookup (sbn1Of st1) w.name = some w ∨
        (dlookup (sbn1Of st1) w.name = none ∧ dlookup rst.recToTerm w.name = some w)) →
      z.name = w.name → z = w := by
    intro z w hz hw hnm
    rcases hz with hz | ⟨hz1, hz2⟩ <;> rcases hw with hw | ⟨hw1, hw2⟩
    · rw [hnm] at hz
      rw [hz] at hw
      exact Option.some.inj hw
    · rw [hnm] at hz
      rw [hz] at hw1
      exact absurd hw1 (by simp)
    · rw [← hnm] at hw
      rw [hw] at hz1
      exact absurd hz1 (by simp)
    · rw [hnm] at hz2
      rw [hz2] at hw2
      exact Option.some.inj hw2
  subst hg
  refine ⟨?_, ?_, ?_, ?_, ?_⟩
  · intro p hp
    simp only [] at hp
    obtain ⟨q1, hq1, rfl⟩ := List.mem_map.mp hp
    obtain ⟨q, hq, hsym, hrhs⟩ := enumerateLoop_mem _ _ _ _ hq1
    have hq2 := prune_mem _ _ hq
    have hlk := (hprod q hq2).1
    simp only []
    rw [dlookup_map_value, kwApply_name, hsym, hlk]
    rfl
  · intro p hp r hr
    simp only [] at hp
    obtain ⟨q1, hq1, rfl⟩ := List.mem_map.mp hp
    obtain ⟨q, hq, hsym, hrhs⟩ := enumerateLoop_mem _ _ _ _ hq1
    have hq2 := prune_mem _ _ hq
    simp only [] at hr
    rw [hrhs] at hr
    obtain ⟨r0, hr0, rfl⟩ := List.mem_map.mp hr
    have hgood := (hprod q hq2).2 r0 hr0
    unfold GoodSym at hgood
    rcases hgood with hgd | ⟨hgd1, hgd2, hgd3⟩
    · refine Or.inl ?_
      simp only []
      rw [dlookup_map_value, kwApply_name, hgd]
      rfl
    · refine Or.inr ⟨?_, ?_, ?_⟩
      · simp only []
        rw [dlookup_map_value, kwApply_name, hgd1]
        rfl
      · rw [kwApply_kind]
        exact hgd2
      · simp only []
        exact List.mem_map.mpr ⟨r0, hgd3, rfl⟩
  · intro x hx
    simp only [] at hx
    obtain ⟨z, hz, rfl⟩ := List.mem_map.mp hx
    have hlk := hregv z (List.mem_filter.mp hz).1
    simp only []
    rw [dlookup_map_value, kwApply_name, hlk]
    rfl
  · intro x hx
    simp only [] at hx
    obtain ⟨z, hz, rfl⟩ := List.mem_map.mp hx
    rcases hterm z hz with h1 | ⟨h1, h2, _⟩
    · refine Or.inl ?_
      simp only []
      rw [dlookup_map_value, kwApply_name, h1]
      rfl
    · refine Or.inr ⟨?_, ?_⟩
      · simp only []
        rw [dlookup_map_value, kwApply_name, h1]
        rfl
      · rw [kwApply_kind]
        exact h2
  · intro x hx y hy hnm
    simp only [surface] at hx hy
    rw [dvalues_map_value] at hx hy
    have hget : ∀ u : Sym,
        u ∈ rst.terminals.map (kwApply kw) ++ (nonterminals0Of st1).map (kwApply kw)
          ++ (dvalues (sbn1Of st1)).map (kwApply kw) →
        ∃ z, (dlookup (sbn1Of st1) z.name = some z ∨
          (dlookup (sbn1Of st1) z.name = none ∧ dlookup rst.recToTerm z.name = some z)) ∧
          u = kwApply kw z := by
      intro u hu
      rcases List.mem_append.mp hu with hu1 | hu1
      · rcases List.mem_append.mp hu1 with hu2 | hu2
        · obtain ⟨z, hz, hze⟩ := List.mem_map.mp hu2
          exact ⟨z, hclass z (Or.inl hz), hze.symm⟩
        · obtain ⟨z, hz, hze⟩ := List.mem_map.mp hu2
          exact ⟨z, hclass z (Or.inr (Or.inl hz)), hze.symm⟩
      · obtain ⟨z, hz, hze⟩ := List.mem_map.mp hu1
        exact ⟨z, hclass z (Or.inr (Or.inr hz)), hze.symm⟩
    obtain ⟨zx, hzx, hex⟩ := hget x hx
    obtain ⟨zy, hzy, hey⟩ := hget y hy
    rw [hex, hey] at hnm
    rw [kwApply_name, kwApply_name] at hnm
    rw [hex, hey, hinj zx zy hzx hzy hnm]

/-- C1 witness: the amended registration and uniqueness facts instantiated
at the concrete one-production grammar S to a. -/
theorem c1_unique_symbol_witness :
    (∀ p ∈ psW, p.symbol.name ≠ "EMPTY" ∧ p.symbol.name ≠ "EOF" ∧
      p.symbol.name ≠ "STOP") ∧
    (∀ x ∈ surface gW, ∀ y ∈ surface gW, x.name = y.name → x = y) :=
  ⟨by decide,
   (c1_unique_symbol_amended psW (some "g") none StartParam.noStart true gW
     (by decide) (by decide)).2.2.2.2⟩

end Parglare
